import Mathlib

/-!
Verification of the task-form normalizer `ModuleArgsParser`
(`src/v2/ansible/parsing/mod_args.py`) against its specification.

The Python module is shallowly embedded: Python values appearing in a task
record become the inductive type `Value`; Python dicts become association
lists (`Dict`) whose keys are unique in every record a Python caller could
build; fallible code returns `Except PErr`.  The two external collaborators
(the module registry `module_loader` and the tokenizer `parse_kv` from
`ansible.parsing.splitter`, neither of which is part of the sources under
verification) appear as a parameter `isKnown : String → Bool` and as a
definition modelled from the specification, respectively.
-/

namespace ModArgs

/-- A Python value as it can occur in a task record: a string, a dict
(association list of string keys), `None`, a bool, an int, or some other
object.  `vother` carries the text Python's `type()` would print for it and
its truthiness; it stands for a non-iterable object that is none of the
other shapes. -/
inductive Value where
  | vstr (s : String)
  | vdict (entries : List (String × Value))
  | vnone
  | vbool (b : Bool)
  | vint (n : Int)
  | vother (pytype : String) (truthy : Bool)
deriving Repr

mutual

/-- Structural boolean equality of `Value`s. -/
def beqValue : Value → Value → Bool
  | .vstr a, .vstr b => a == b
  | .vdict a, .vdict b => beqEntries a b
  | .vnone, .vnone => true
  | .vbool a, .vbool b => a == b
  | .vint a, .vint b => a == b
  | .vother t1 b1, .vother t2 b2 => t1 == t2 && b1 == b2
  | _, _ => false

/-- Structural boolean equality of dict entry lists. -/
def beqEntries : List (String × Value) → List (String × Value) → Bool
  | [], [] => true
  | (k1, v1) :: r1, (k2, v2) :: r2 =>
      k1 == k2 && beqValue v1 v2 && beqEntries r1 r2
  | _, _ => false

end

mutual

theorem beqValue_iff : (a b : Value) → (beqValue a b = true ↔ a = b)
  | .vstr a, .vstr b => by simp [beqValue]
  | .vdict a, .vdict b => by
      simp only [beqValue]
      rw [beqEntries_iff a b]
      exact ⟨fun h => by rw [h], fun h => by injection h⟩
  | .vnone, .vnone => by simp [beqValue]
  | .vbool a, .vbool b => by simp [beqValue]
  | .vint a, .vint b => by simp [beqValue]
  | .vother t1 b1, .vother t2 b2 => by simp [beqValue]
  | .vstr _, .vdict _ => by simp [beqValue]
  | .vstr _, .vnone => by simp [beqValue]
  | .vstr _, .vbool _ => by simp [beqValue]
  | .vstr _, .vint _ => by simp [beqValue]
  | .vstr _, .vother _ _ => by simp [beqValue]
  | .vdict _, .vstr _ => by simp [beqValue]
  | .vdict _, .vnone => by simp [beqValue]
  | .vdict _, .vbool _ => by simp [beqValue]
  | .vdict _, .vint _ => by simp [beqValue]
  | .vdict _, .vother _ _ => by simp [beqValue]
  | .vnone, .vstr _ => by simp [beqValue]
  | .vnone, .vdict _ => by simp [beqValue]
  | .vnone, .vbool _ => by simp [beqValue]
  | .vnone, .vint _ => by simp [beqValue]
  | .vnone, .vother _ _ => by simp [beqValue]
  | .vbool _, .vstr _ => by simp [beqValue]
  | .vbool _, .vdict _ => by simp [beqValue]
  | .vbool _, .vnone => by simp [beqValue]
  | .vbool _, .vint _ => by simp [beqValue]
  | .vbool _, .vother _ _ => by simp [beqValue]
  | .vint _, .vstr _ => by simp [beqValue]
  | .vint _, .vdict _ => by simp [beqValue]
  | .vint _, .vnone => by simp [beqValue]
  | .vint _, .vbool _ => by simp [beqValue]
  | .vint _, .vother _ _ => by simp [beqValue]
  | .vother _ _, .vstr _ => by simp [beqValue]
  | .vother _ _, .vdict _ => by simp [beqValue]
  | .vother _ _, .vnone => by simp [beqValue]
  | .vother _ _, .vbool _ => by simp [beqValue]
  | .vother _ _, .vint _ => by simp [beqValue]

theorem beqEntries_iff :
    (a b : List (String × Value)) → (beqEntries a b = true ↔ a = b)
  | [], [] => by simp [beqEntries]
  | (k1, v1) :: r1, (k2, v2) :: r2 => by
      simp only [beqEntries, Bool.and_eq_true, beq_iff_eq]
      rw [beqValue_iff v1 v2, beqEntries_iff r1 r2]
      constructor
      · rintro ⟨⟨rfl, rfl⟩, rfl⟩; rfl
      · intro h; injection h with h1 h2; injection h1; simp_all
  | [], _ :: _ => by simp [beqEntries]
  | _ :: _, [] => by simp [beqEntries]

end

instance : DecidableEq Value := fun a b =>
  decidable_of_iff (beqValue a b = true) (beqValue_iff a b)

instance : BEq Value := ⟨beqValue⟩

instance : LawfulBEq Value where
  eq_of_beq h := (beqValue_iff _ _).mp h
  rfl := (beqValue_iff _ _).mpr rfl

/-- A Python dict with string keys, as an association list. -/
abbrev Dict := List (String × Value)

/-- Python `k in d` for a dict. -/
def containsKey (d : Dict) (k : String) : Bool :=
  d.any (fun p => p.1 == k)

/-- Python `d.get(k)` / `d[k]`: the first binding of `k`. -/
def lookupKey : Dict → String → Option Value
  | [], _ => none
  | p :: rest, k => if p.1 == k then some p.2 else lookupKey rest k

/-- Python `d.get(k, dflt)`. -/
def getKeyD (d : Dict) (k : String) (dflt : Value) : Value :=
  (lookupKey d k).getD dflt

/-- Python `d[k] = v`: overwrite the binding of `k` in place, else append. -/
def setKey (d : Dict) (k : String) (v : Value) : Dict :=
  if containsKey d k then
    d.map (fun p => if p.1 == k then (k, v) else p)
  else
    d ++ [(k, v)]

/-- Python `del d[k]`. -/
def delKey (d : Dict) (k : String) : Dict :=
  d.filter (fun p => !(p.1 == k))

/-- Python `d.update(e)`: every binding of `e` is written into `d`. -/
def updateDict (d e : Dict) : Dict :=
  e.foldl (fun acc p => setKey acc p.1 p.2) d

/-- Python truthiness of a `Value`. -/
def pyTruthy : Value → Bool
  | .vstr s => !(s == "")
  | .vdict m => !m.isEmpty
  | .vnone => false
  | .vbool b => b
  | .vint n => !(n == 0)
  | .vother _ t => t

/-- The text Python 2's `"%s" % type(x)` produces for a value `x`. -/
def pyType : Value → String
  | .vstr _ => "<type 'str'>"
  | .vdict _ => "<type 'dict'>"
  | .vnone => "<type 'NoneType'>"
  | .vbool _ => "<type 'bool'>"
  | .vint _ => "<type 'int'>"
  | .vother t _ => t

/-- Helper for `pySplit`: gathers maximal runs of non-whitespace characters
(`cur` is the current run, reversed). -/
def wsTokensAux : List Char → List Char → List (List Char)
  | cur, [] => if cur.isEmpty then [] else [cur.reverse]
  | cur, c :: cs =>
    if c.isWhitespace then
      if cur.isEmpty then wsTokensAux [] cs
      else cur.reverse :: wsTokensAux [] cs
    else wsTokensAux (c :: cur) cs

/-- Python `s.split()`: split on runs of whitespace, discarding empty
pieces. -/
def pySplit (s : String) : List String :=
  (wsTokensAux [] s.data).map String.mk

/-- Python `sep.join(tokens)`. -/
def joinWith (sep : String) : List String → String
  | [] => ""
  | [t] => t
  | t :: rest => t ++ sep ++ joinWith sep rest

/-- Splits a token at its first `=`, when it has one. -/
def splitFirstEq : List Char → Option (List Char × List Char)
  | [] => none
  | c :: cs =>
    if c = '=' then some ([], cs)
    else match splitFirstEq cs with
      | none => none
      | some (k, v) => some (c :: k, v)

/-- The errors the embedded code can signal.  `ansibleParserError` is the
library's own `AnsibleParserError` (the spec's MalformedTaskError), carrying
its message and the offending task record; `indexError` is a Python
`IndexError` (out-of-range subscript); `typeErr` is the Python
`TypeError`/`ValueError` raised by `dict.update` on a non-mapping
argument. -/
inductive PErr where
  | ansibleParserError (msg : String) (obj : Dict)
  | indexError
  | typeErr
deriving DecidableEq, Repr

instance {ε α : Type} [DecidableEq ε] [DecidableEq α] :
    DecidableEq (Except ε α) := fun x y =>
  match x, y with
  | .error e, .error f =>
      if h : e = f then isTrue (congrArg Except.error h)
      else isFalse (fun hc => h (by injection hc))
  | .error _, .ok _ => isFalse (fun hc => Except.noConfusion hc)
  | .ok _, .error _ => isFalse (fun hc => Except.noConfusion hc)
  | .ok a, .ok b =>
      if h : a = b then isTrue (congrArg Except.ok h)
      else isFalse (fun hc => h (by injection hc))

/-- Modelled from the spec: the Key-Value Tokenizer
(`parse_kv(text, raw_mode)` of `ansible.parsing.splitter`, which is not
among the sources under verification).  When `raw_mode` is true the entire
text is preserved as a single raw-parameters value (under the key
`_raw_params`, empty text giving the empty mapping); otherwise the text is
parsed as whitespace-separated `key=value` tokens into a mapping, later
bindings of the same key overwriting earlier ones and tokens without `=`
contributing nothing. -/
def parse_kv (text : String) (check_raw : Bool) : Dict :=
  if check_raw then
    if text == "" then [] else [("_raw_params", Value.vstr text)]
  else
    (pySplit text).foldl
      (fun acc tok =>
        match splitFirstEq tok.data with
        | none => acc
        | some (k, v) =>
            setKey acc (String.mk k) (Value.vstr (String.mk v)))
      []

/-- `ModuleArgsParser._split_module_string`: `str.split()`, first token is
the module name, the rest re-joined with single blanks.  On a string with
no tokens, `tokens[0]` raises `IndexError`. -/
def split_module_string (s : String) : Except PErr (String × String) :=
  match pySplit s with
  | [] => .error .indexError
  | [t] => .ok (t, "")
  | t :: rest => .ok (t, joinWith " " rest)

/-- `action in ('command', 'shell', 'script')` for a string. -/
def checkRawFor (a : String) : Bool :=
  a == "command" || a == "shell" || a == "script"

/-- `action in ('command', 'shell', 'script')` where `action` is an
arbitrary Python value (equality with a string holds only for that
string). -/
def valueCheckRaw : Value → Bool
  | .vstr a => checkRawFor a
  | _ => false

/-- `ModuleArgsParser._normalize_new_style_args`: the value of `thing`
determines `(action, args)`.  A dict is shallow-copied and its `module`
key (when present) supplies the action; a string is split into module name
and argument text; anything else raises `AnsibleParserError`. -/
def normalize_new_style_args (task_ds : Dict) (thing : Value) :
    Except PErr (Value × Value) :=
  match thing with
  | .vdict m =>
      if containsKey m "module" then
        .ok (getKeyD m "module" Value.vnone, Value.vdict (delKey m "module"))
      else
        .ok (Value.vnone, Value.vnone)
  | .vstr s => do
      let (a, rest) ← split_module_string s
      .ok (Value.vstr a, Value.vdict (parse_kv rest (checkRawFor a)))
  | _ =>
      .error (.ansibleParserError
        ("unexpected parameter type in action: " ++ pyType thing) task_ds)

/-- `ModuleArgsParser._normalize_old_style_args`: with the action already
known, a dict is used directly, a string is tokenized (raw mode for
command/shell/script), `None` stays `None`, anything else raises
`AnsibleParserError`. -/
def normalize_old_style_args (task_ds : Dict) (thing : Value)
    (action : Value) : Except PErr Value :=
  match thing with
  | .vdict m => .ok (Value.vdict m)
  | .vstr s => .ok (Value.vdict (parse_kv s (valueCheckRaw action)))
  | .vnone => .ok Value.vnone
  | _ =>
      .error (.ansibleParserError
        ("unexpected parameter type in action: " ++ pyType thing) task_ds)

/-- `if args and 'args' in args: args = args['args']` from
`_normalize_parameters`.  At this point in the code `args` is always a
dict or `None`; a non-dict value passes through untouched. -/
def unwrapArgs (args : Value) : Value :=
  match args with
  | .vdict m =>
      if !m.isEmpty && containsKey m "args" then getKeyD m "args" Value.vnone
      else Value.vdict m
  | v => v

/-- `final_args = dict(); if additional_args: final_args.update(additional_args)`
from `_normalize_parameters`: the defaults seed the result; Python's
`dict.update` raises on a truthy non-mapping argument. -/
def initialFinalArgs (additional_args : Value) : Except PErr Dict :=
  if pyTruthy additional_args then
    match additional_args with
    | .vdict d => pure (updateDict [] d)
    | _ => .error .typeErr
  else pure []

/-- `if args: final_args.update(args)` from `_normalize_parameters`:
the normalized (and unwrapped) arguments are written over the defaults;
`dict.update` raises on a truthy non-mapping argument. -/
def mergeFinalArgs (action2 : Value) (final0 : Dict) (args : Value) :
    Except PErr (Value × Dict) :=
  if pyTruthy args then
    match args with
    | .vdict m => pure (action2, updateDict final0 m)
    | _ => .error .typeErr
  else pure (action2, final0)

/-- `ModuleArgsParser._normalize_parameters`.  `final_args` starts from
`additional_args`, the value is normalized old- or new-style depending on
whether the action is already known, a single-level `args` wrapper is
unwrapped, and the result is written over the defaults. -/
def normalize_parameters (task_ds : Dict) (thing : Value) (action : Value)
    (additional_args : Value) : Except PErr (Value × Dict) := do
  let final0 ← initialFinalArgs additional_args
  let (action2, args) ←
    if action ≠ Value.vnone then do
      let a ← normalize_old_style_args task_ds thing action
      pure (action, a)
    else
      normalize_new_style_args task_ds thing
  mergeFinalArgs action2 final0 (unwrapArgs args)

/-- The `for (item, value) in iteritems(self._task_ds)` loop of
`ModuleArgsParser.parse`: every key recognized by the registry (or equal
to `meta`) must be the unique source of the action. -/
def scanModules (isKnown : String → Bool) (task_ds : Dict)
    (additional_args : Value) :
    List (String × Value) → Value → Dict → Except PErr (Value × Dict)
  | [], action, args => .ok (action, args)
  | (item, value) :: rest, action, args =>
    if isKnown item || item == "meta" then
      if action ≠ Value.vnone then
        .error (.ansibleParserError "conflicting action statements" task_ds)
      else do
        let (a, ar) ← normalize_parameters task_ds value (Value.vstr item)
          additional_args
        scanModules isKnown task_ds additional_args rest a ar
    else
      scanModules isKnown task_ds additional_args rest action args

/-- `ModuleArgsParser._handle_shell_weirdness`: `shell` becomes `command`
with `_uses_shell = True` injected; everything else is untouched. -/
def handle_shell_weirdness (action : Value) (args : Dict) : Value × Dict :=
  if !(action == Value.vstr "shell" || action == Value.vstr "command") then
    (action, args)
  else if action == Value.vstr "shell" then
    (Value.vstr "command", setKey args "_uses_shell" (Value.vbool true))
  else
    (action, args)

/-- The `action` and `local_action` blocks of `ModuleArgsParser.parse`:
they leave an `(action, args, delegate_to)` state for the registry scan,
with mutual exclusion checked against the action determined by the
`action` block. -/
def parseActionStages (task_ds : Dict) (additional_args : Value) :
    Except PErr (Value × Dict × Option String) := do
  let (action, args, delegate_to) ←
    if containsKey task_ds "action" then do
      let thing := getKeyD task_ds "action" Value.vnone
      let (a, ar) ← normalize_parameters task_ds thing Value.vnone
        additional_args
      pure (a, ar, (none : Option String))
    else
      pure (Value.vnone, ([] : Dict), (none : Option String))
  if containsKey task_ds "local_action" then
    if action ≠ Value.vnone then
      .error (.ansibleParserError
        "action and local_action are mutually exclusive" task_ds)
    else do
      let thing := getKeyD task_ds "local_action" (Value.vstr "")
      let (a, ar) ← normalize_parameters task_ds thing Value.vnone
        additional_args
      pure (a, ar, (some "localhost" : Option String))
  else
    pure (action, args, delegate_to)

/-- `ModuleArgsParser.parse` up to (but not including) the final
`_handle_shell_weirdness` call: shared defaults, the `action` and
`local_action` blocks, the registry scan, and the no-action check. -/
def parsePre (isKnown : String → Bool) (task_ds : Dict) :
    Except PErr (Value × Dict × Option String) := do
  let additional_args := getKeyD task_ds "args" (Value.vdict [])
  let (action, args, delegate_to) ← parseActionStages task_ds
    additional_args
  let (action, args) ← scanModules isKnown task_ds additional_args task_ds
    action args
  if action == Value.vnone then
    .error (.ansibleParserError "no action detected in task" task_ds)
  else
    pure (action, args, delegate_to)

/-- `ModuleArgsParser.parse`: the normalization pipeline followed by the
shell/command post-processing, returning `(action, args, delegate_to)`. -/
def parse (isKnown : String → Bool) (task_ds : Dict) :
    Except PErr (Value × Dict × Option String) := do
  let (action, args, delegate_to) ← parsePre isKnown task_ds
  let (action2, args2) := handle_shell_weirdness action args
  pure (action2, args2, delegate_to)

/-- Discriminates the library's own `AnsibleParserError` (the spec's
MalformedTaskError) from the interpreter-level errors. -/
def isParserError : PErr → Bool
  | .ansibleParserError _ _ => true
  | _ => false

/-- A mapping whose `args` entry (when present and truthy) is itself a
mapping — the condition under which the single-level `args` unwrap of
`_normalize_parameters` cannot feed a truthy non-mapping to
`dict.update`.  Applied to the record itself it equally constrains the
top-level shared defaults. -/
def tameDictB (m : Dict) : Bool :=
  match lookupKey m "args" with
  | some (Value.vdict _) => true
  | some w => !(pyTruthy w)
  | none => true

/-- A value reaching the old-style path (the value of a matched registry
or `meta` key) that triggers no interpreter-level failure: a string's
tokenization, and a mapping itself, must satisfy `tameDictB`.  Strings
are never split here, so the empty string is fine. -/
def tameOldStyleB : Value → Bool
  | .vstr s =>
      tameDictB (parse_kv s true) && tameDictB (parse_kv s false)
  | .vdict m => tameDictB m
  | _ => true

/-- A value reaching the new-style path (the value of `action` or
`local_action`) that triggers no interpreter-level failure: a string
must have at least one whitespace token (else `tokens[0]` raises
IndexError) and the tokenization of its remainder must satisfy
`tameDictB`; a mapping must satisfy `tameDictB` itself. -/
def tameNewStyleB : Value → Bool
  | .vstr s =>
      (match pySplit s with
       | [] => false
       | _ :: restToks =>
           tameDictB (parse_kv (joinWith " " restToks) true) &&
           tameDictB (parse_kv (joinWith " " restToks) false))
  | .vdict m => tameDictB m
  | _ => true

/-- A record that triggers none of the interpreter-level failure modes of
`parse`: its `action` and `local_action` values (when present) are tame
for the new-style path, its top-level `args` defaults are a mapping or
falsy, and every registry (or `meta`) key's value is tame for the
old-style path.  Values under other keys are never touched and are
unconstrained. -/
def tameRecordB (isKnown : String → Bool) (ds : Dict) : Bool :=
  (match lookupKey ds "action" with
   | some v => tameNewStyleB v
   | none => true) &&
  (match lookupKey ds "local_action" with
   | some v => tameNewStyleB v
   | none => true) &&
  tameDictB ds &&
  ds.all (fun p => !(isKnown p.1 || p.1 == "meta") || tameOldStyleB p.2)

/-!
## Heap model

A second embedding of the same source, at the level of Python's object
store, to state frame properties (claim: `parse` never mutates its input
record).  Dicts live in a `Store` (address → entries) and dict values are
references; every in-place dict operation of the source (`dict.update`,
`args['_uses_shell'] = True`, `del args['module']`) becomes a store write,
and `thing.copy()` becomes a shallow copy at a fresh address.
-/

/-- A Python value in the heap model: dicts are references into the
store. -/
inductive HVal where
  | hstr (s : String)
  | href (a : Nat)
  | hnone
  | hbool (b : Bool)
  | hint (n : Int)
  | hother (pytype : String) (truthy : Bool)
deriving DecidableEq, Repr

/-- The entries of one heap-allocated dict. -/
abbrev HDict := List (String × HVal)

/-- The object store: address → dict entries. -/
abbrev Store := List HDict

/-- Errors of the heap model (the offending record is a reference). -/
inductive HErr where
  | parserError (msg : String) (obj : Nat)
  | indexError
  | typeErr
deriving DecidableEq, Repr

/-- A store-passing computation; the store survives a raised exception,
as Python's heap does. -/
def M (α : Type) : Type := Store → Except HErr α × Store

def mPure {α : Type} (x : α) : M α := fun σ => (.ok x, σ)

def mBind {α β : Type} (m : M α) (f : α → M β) : M β := fun σ =>
  match m σ with
  | (.error e, σ2) => (.error e, σ2)
  | (.ok x, σ2) => f x σ2

instance : Monad M where
  pure := mPure
  bind := mBind

def mThrow {α : Type} (e : HErr) : M α := fun σ => (.error e, σ)

/-- Allocate a fresh dict, returning its address. -/
def allocDict (d : HDict) : M Nat := fun σ => (.ok σ.length, σ ++ [d])

/-- Read a dict's entries. -/
def readDict (a : Nat) : M HDict := fun σ => (.ok (σ.getD a []), σ)

/-- Overwrite a dict's entries in place. -/
def writeDict (a : Nat) (d : HDict) : M Unit := fun σ => (.ok (), σ.set a d)

/-- Python `k in d` for heap dict entries. -/
def hContains (d : HDict) (k : String) : Bool := d.any (fun p => p.1 == k)

/-- Python `d.get(k)` on heap dict entries. -/
def hLookup : HDict → String → Option HVal
  | [], _ => none
  | p :: rest, k => if p.1 == k then some p.2 else hLookup rest k

/-- Python `d.get(k, dflt)` on heap dict entries. -/
def hGetD (d : HDict) (k : String) (dflt : HVal) : HVal :=
  (hLookup d k).getD dflt

/-- Pure part of `d[k] = v` on entries. -/
def hSetKey (d : HDict) (k : String) (v : HVal) : HDict :=
  if hContains d k then
    d.map (fun p => if p.1 == k then (k, v) else p)
  else
    d ++ [(k, v)]

/-- Pure part of `del d[k]` on entries. -/
def hDelKey (d : HDict) (k : String) : HDict :=
  d.filter (fun p => !(p.1 == k))

/-- Pure part of `d.update(e)` on entries. -/
def hUpdate (d e : HDict) : HDict :=
  e.foldl (fun acc p => hSetKey acc p.1 p.2) d

/-- Python `d[k] = v` on a heap dict. -/
def dictSetItem (a : Nat) (k : String) (v : HVal) : M Unit := do
  let d ← readDict a
  writeDict a (hSetKey d k v)

/-- Python `del d[k]` on a heap dict. -/
def dictDelItem (a : Nat) (k : String) : M Unit := do
  let d ← readDict a
  writeDict a (hDelKey d k)

/-- Python `d.update(src)` on a heap dict (the source already read). -/
def dictUpdateRef (a : Nat) (src : HDict) : M Unit := do
  let d ← readDict a
  writeDict a (hUpdate d src)

/-- Python `d.copy()`: a shallow copy at a fresh address. -/
def dictCopy (a : Nat) : M Nat := do
  let d ← readDict a
  allocDict d

/-- Python truthiness in the heap model (a dict's truthiness needs the
store). -/
def hTruthy : HVal → M Bool
  | .hstr s => pure (!(s == ""))
  | .href a => do
      let d ← readDict a
      pure (!d.isEmpty)
  | .hnone => pure false
  | .hbool b => pure b
  | .hint n => pure (!(n == 0))
  | .hother _ t => pure t

/-- The text `"%s" % type(x)` in the heap model. -/
def hPyType : HVal → String
  | .hstr _ => "<type 'str'>"
  | .href _ => "<type 'dict'>"
  | .hnone => "<type 'NoneType'>"
  | .hbool _ => "<type 'bool'>"
  | .hint _ => "<type 'int'>"
  | .hother t _ => t

/-- `action == "name"` for a heap value. -/
def hEqStr : HVal → String → Bool
  | .hstr a, s => a == s
  | _, _ => false

/-- `action in ('command', 'shell', 'script')` for a heap value. -/
def hCheckRaw (v : HVal) : Bool :=
  hEqStr v "command" || hEqStr v "shell" || hEqStr v "script"

/-- The Key-Value Tokenizer's output as heap dict entries (the tokenizer
builds a fresh dict of string values). -/
def hparse_kv (text : String) (check_raw : Bool) : HDict :=
  if check_raw then
    if text == "" then [] else [("_raw_params", HVal.hstr text)]
  else
    (pySplit text).foldl
      (fun acc tok =>
        match splitFirstEq tok.data with
        | none => acc
        | some (k, v) =>
            hSetKey acc (String.mk k) (HVal.hstr (String.mk v)))
      []

/-- `_normalize_new_style_args` in the heap model: the dict branch shallow
copies `thing` before reading `module`, and copies again before deleting
the `module` key. -/
def normalize_new_style_argsH (task_ref : Nat) (thing : HVal) :
    M (HVal × HVal) :=
  match thing with
  | .href a0 => do
      let c ← dictCopy a0
      let d ← readDict c
      if hContains d "module" then do
        let action := hGetD d "module" HVal.hnone
        let argsRef ← dictCopy c
        dictDelItem argsRef "module"
        pure (action, HVal.href argsRef)
      else
        pure (HVal.hnone, HVal.hnone)
  | .hstr s => do
      match pySplit s with
      | [] => mThrow .indexError
      | [t] => do
          let r ← allocDict (hparse_kv "" (checkRawFor t))
          pure (HVal.hstr t, HVal.href r)
      | t :: rest => do
          let r ← allocDict (hparse_kv (joinWith " " rest) (checkRawFor t))
          pure (HVal.hstr t, HVal.href r)
  | _ =>
      mThrow (.parserError
        ("unexpected parameter type in action: " ++ hPyType thing) task_ref)

/-- `_normalize_old_style_args` in the heap model: the dict branch is an
alias (`args = thing`), the string branch allocates the tokenizer's fresh
dict. -/
def normalize_old_style_argsH (task_ref : Nat) (thing : HVal)
    (action : HVal) : M HVal :=
  match thing with
  | .href a0 => pure (HVal.href a0)
  | .hstr s => do
      let r ← allocDict (hparse_kv s (hCheckRaw action))
      pure (HVal.href r)
  | .hnone => pure HVal.hnone
  | _ =>
      mThrow (.parserError
        ("unexpected parameter type in action: " ++ hPyType thing) task_ref)

/-- `if v: fa.update(v)` from `_normalize_parameters`: evaluate the
value's truthiness and write its entries over the dict at `fa`; a truthy
non-dict makes `dict.update` raise. -/
def updateFromValue (fa : Nat) (v : HVal) : M Unit := do
  let t ← hTruthy v
  if t then
    match v with
    | .href a0 => do
        let d ← readDict a0
        dictUpdateRef fa d
    | _ => mThrow .typeErr
  else pure ()

/-- `if args and 'args' in args: args = args['args']` from
`_normalize_parameters`, in the heap model. -/
def unwrapArgsH (args : HVal) : M HVal :=
  match args with
  | .href a0 => do
      let d ← readDict a0
      if !d.isEmpty && hContains d "args" then
        pure (hGetD d "args" HVal.hnone)
      else pure args
  | x => pure x

/-- `_normalize_parameters` in the heap model: `final_args` is a fresh
dict, updated first from the defaults and then from the normalized (and
once-unwrapped) arguments. -/
def normalize_parametersH (task_ref : Nat) (thing : HVal) (action : HVal)
    (additional_args : HVal) : M (HVal × Nat) := do
  let fa ← allocDict []
  let _ ← updateFromValue fa additional_args
  let p ←
    (if action ≠ HVal.hnone then do
      let ar ← normalize_old_style_argsH task_ref thing action
      pure (action, ar)
    else
      normalize_new_style_argsH task_ref thing)
  let args2 ← unwrapArgsH p.2
  let _ ← updateFromValue fa args2
  pure (p.1, fa)

/-- The registry scan of `parse` in the heap model. -/
def scanModulesH (isKnown : String → Bool) (task_ref : Nat)
    (additional_args : HVal) :
    List (String × HVal) → HVal → Nat → M (HVal × Nat)
  | [], action, args => pure (action, args)
  | (item, value) :: rest, action, args =>
    if isKnown item || item == "meta" then
      if action ≠ HVal.hnone then
        mThrow (.parserError "conflicting action statements" task_ref)
      else do
        let (a, ar) ← normalize_parametersH task_ref value (HVal.hstr item)
          additional_args
        scanModulesH isKnown task_ref additional_args rest a ar
    else scanModulesH isKnown task_ref additional_args rest action args

/-- `_handle_shell_weirdness` in the heap model: the `_uses_shell`
injection is an in-place write on the parameter dict. -/
def handle_shell_weirdnessH (action : HVal) (argsRef : Nat) :
    M (HVal × Nat) :=
  if !(hEqStr action "shell" || hEqStr action "command") then
    pure (action, argsRef)
  else if hEqStr action "shell" then do
    dictSetItem argsRef "_uses_shell" (HVal.hbool true)
    pure (HVal.hstr "command", argsRef)
  else
    pure (action, argsRef)

/-- `ModuleArgsParser.parse` in the heap model. -/
def parseH (isKnown : String → Bool) (task_ref : Nat) :
    M (HVal × Nat × Option String) := do
  let task ← readDict task_ref
  let args0 ← allocDict []
  let dflt ← allocDict []
  let additional_args := hGetD task "args" (HVal.href dflt)
  let trip1 ←
    (if hContains task "action" then do
      let p ← normalize_parametersH task_ref
        (hGetD task "action" HVal.hnone) HVal.hnone additional_args
      pure (p.1, p.2, (none : Option String))
    else
      pure (HVal.hnone, args0, (none : Option String)))
  let trip2 ←
    (if hContains task "local_action" then
      if trip1.1 ≠ HVal.hnone then
        mThrow (.parserError
          "action and local_action are mutually exclusive" task_ref)
      else do
        let p ← normalize_parametersH task_ref
          (hGetD task "local_action" (HVal.hstr "")) HVal.hnone
          additional_args
        pure (p.1, p.2, (some "localhost" : Option String))
    else
      pure trip1)
  let q ← scanModulesH isKnown task_ref additional_args task trip2.1
    trip2.2.1
  let r ←
    (if q.1 = HVal.hnone then
      mThrow (.parserError "no action detected in task" task_ref)
    else
      handle_shell_weirdnessH q.1 q.2)
  pure (r.1, r.2, trip2.2.2)

/-- Frame predicate: running `m` from any store of length at least `n`
leaves every address below `n` untouched, never shrinks the store, and
every successful result satisfies `P`. -/
def FramesRet (n : Nat) {α : Type} (m : M α) (P : α → Prop) : Prop :=
  ∀ σ : Store, n ≤ σ.length →
    n ≤ (m σ).2.length ∧
    (∀ a, a < n → (m σ).2.getD a [] = σ.getD a []) ∧
    (∀ x, (m σ).1 = .ok x → P x)


/-! ## Library lemmas about the dict operations -/

@[simp] theorem exceptBind_ok {α β : Type} (a : α) (f : α → Except PErr β) :
    (Except.ok a >>= f) = f a := rfl

@[simp] theorem exceptBind_error {α β : Type} (e : PErr)
    (f : α → Except PErr β) :
    ((Except.error e : Except PErr α) >>= f) = Except.error e := rfl

@[simp] theorem exceptMap_ok {α β : Type} (a : α) (f : α → β) :
    (f <$> (Except.ok a : Except PErr α)) = Except.ok (f a) := rfl

@[simp] theorem exceptMap_error {α β : Type} (e : PErr) (f : α → β) :
    (f <$> (Except.error e : Except PErr α)) = Except.error e := rfl

@[simp] theorem exceptPure_eq_ok {α : Type} (a : α) :
    (pure a : Except PErr α) = Except.ok a := rfl

theorem containsKey_map_overwrite (d : Dict) (k k' : String) (v : Value) :
    containsKey (d.map (fun p => if p.1 == k then (k, v) else p)) k' =
      containsKey d k' := by
  induction d with
  | nil => rfl
  | cons p rest ih =>
    by_cases hp : p.1 = k
    · simp [containsKey, List.any_cons, hp] at ih ⊢
      rw [ih]
    · simp [containsKey, List.any_cons, hp] at ih ⊢
      rw [ih]

theorem lookupKey_map_overwrite (d : Dict) (k : String) (v : Value)
    (hc : containsKey d k = true) :
    lookupKey (d.map (fun p => if p.1 == k then (k, v) else p)) k =
      some v := by
  induction d with
  | nil => simp [containsKey] at hc
  | cons p rest ih =>
    by_cases hp : p.1 = k
    · simp [lookupKey, hp]
    · have hrest : containsKey rest k = true := by
        simpa [containsKey, List.any_cons, hp] using hc
      simpa [lookupKey, hp] using ih hrest

theorem lookupKey_append_new (d : Dict) (k : String) (v : Value)
    (hc : containsKey d k = false) :
    lookupKey (d ++ [(k, v)]) k = some v := by
  induction d with
  | nil => simp [lookupKey]
  | cons p rest ih =>
    simp only [containsKey, List.any_cons, Bool.or_eq_false_iff] at hc
    have hp : (p.1 == k) = false := hc.1
    have hrest : containsKey rest k = false := hc.2
    simpa [lookupKey, hp] using ih hrest

theorem lookupKey_setKey_self (d : Dict) (k : String) (v : Value) :
    lookupKey (setKey d k v) k = some v := by
  rw [setKey]
  split
  · next hc => exact lookupKey_map_overwrite d k v hc
  · next hc => exact lookupKey_append_new d k v (by simpa using hc)

theorem containsKey_setKey (d : Dict) (k k' : String) (v : Value) :
    containsKey (setKey d k v) k' = (containsKey d k' || k == k') := by
  rw [setKey]
  split
  · next hc =>
    rw [containsKey_map_overwrite]
    by_cases hk : k = k'
    · subst hk; simp [hc]
    · simp [hk]
  · next _ =>
    simp [containsKey, List.any_append, List.any_cons]

theorem containsKey_updateDict (d e : Dict) (k : String) :
    containsKey (updateDict d e) k = (containsKey d k || containsKey e k) := by
  induction e generalizing d with
  | nil => simp [updateDict, containsKey]
  | cons p rest ih =>
    rw [updateDict, List.foldl_cons]
    have := ih (setKey d p.1 p.2)
    rw [updateDict] at this
    rw [this, containsKey_setKey]
    simp only [containsKey, List.any_cons]
    cases h1 : d.any (fun q => q.1 == k) <;>
      cases h2 : (p.1 == k) <;>
      cases h3 : rest.any (fun q => q.1 == k) <;> simp_all

theorem lookupKey_eq_none (d : Dict) (k : String)
    (h : containsKey d k = false) : lookupKey d k = none := by
  induction d with
  | nil => rfl
  | cons p rest ih =>
    simp only [containsKey, List.any_cons, Bool.or_eq_false_iff] at h
    rw [lookupKey, if_neg (by simp [h.1])]
    exact ih h.2

theorem getKeyD_of_lookup (d : Dict) (k : String) (v dflt : Value)
    (h : lookupKey d k = some v) : getKeyD d k dflt = v := by
  rw [getKeyD, h]
  rfl

theorem getKeyD_of_not_contains (d : Dict) (k : String) (dflt : Value)
    (h : containsKey d k = false) : getKeyD d k dflt = dflt := by
  rw [getKeyD, lookupKey_eq_none d k h]
  rfl

theorem setKey_cons_ne (p : String × Value) (d : Dict) (k : String)
    (v : Value) (h : (p.1 == k) = false) :
    setKey (p :: d) k v = p :: setKey d k v := by
  by_cases hc : containsKey d k = true
  · have hcc : containsKey (p :: d) k = true := by
      simp only [containsKey, List.any_cons, h, Bool.false_or]
      simpa [containsKey] using hc
    rw [setKey, if_pos hcc, setKey, if_pos hc, List.map_cons,
      if_neg (by simp [h])]
  · have hcc : ¬containsKey (p :: d) k = true := by
      simp only [containsKey, List.any_cons, h, Bool.false_or]
      simpa [containsKey] using hc
    rw [setKey, if_neg hcc, setKey, if_neg hc, List.cons_append]

theorem updateDict_cons_free (e : List (String × Value)) :
    ∀ (d : Dict) (k : String) (v : Value),
      (∀ p ∈ e, (p.1 == k) = false) →
      updateDict ((k, v) :: d) e = (k, v) :: updateDict d e := by
  induction e with
  | nil => intro d k v _; rfl
  | cons q rest ih =>
    intro d k v h
    have hq : (q.1 == k) = false := h q (List.mem_cons_self _ _)
    have hq' : (((k, v) : String × Value).1 == q.1) = false := by
      have : ¬q.1 = k := by simpa using hq
      simpa using fun e => this e.symm
    rw [updateDict, List.foldl_cons, setKey_cons_ne (k, v) d q.1 q.2 hq']
    exact ih (setKey d q.1 q.2) k v
      (fun p hp => h p (List.mem_cons_of_mem _ hp))

/-- A dict whose keys are distinct (as every dict built by Python is) is a
fixed point of being written over the empty dict. -/
theorem updateDict_nil_of_nodup (d : Dict)
    (h : (d.map Prod.fst).Nodup) : updateDict [] d = d := by
  induction d with
  | nil => rfl
  | cons p rest ih =>
    rw [List.map_cons, List.nodup_cons] at h
    rw [updateDict, List.foldl_cons,
      show setKey [] p.1 p.2 = [(p.1, p.2)] from rfl]
    have hfree : ∀ q ∈ rest, (q.1 == p.1) = false := by
      intro q hq
      have : q.1 ∈ rest.map Prod.fst := List.mem_map_of_mem _ hq
      by_cases hb : q.1 = p.1
      · exact absurd (hb ▸ this) h.1
      · simp [hb]
    calc List.foldl (fun acc q => setKey acc q.1 q.2) [(p.1, p.2)] rest
        = updateDict [(p.1, p.2)] rest := rfl
      _ = (p.1, p.2) :: updateDict [] rest := updateDict_cons_free rest [] p.1 p.2 hfree
      _ = (p.1, p.2) :: rest := by rw [ih h.2]
      _ = p :: rest := by rfl

theorem keys_setKey (d : Dict) (k : String) (v : Value) :
    (setKey d k v).map Prod.fst =
      if containsKey d k then d.map Prod.fst
      else d.map Prod.fst ++ [k] := by
  rw [setKey]
  split
  · next hc =>
    rw [List.map_map]
    apply List.map_congr_left
    intro p _
    by_cases hp : (p.1 == k) = true
    · simp only [Function.comp_apply, hp, if_pos rfl]
      exact (eq_of_beq hp).symm
    · simp only [Function.comp_apply]
      rw [if_neg (by simp_all)]
  · simp

theorem nodup_keys_setKey (d : Dict) (k : String) (v : Value)
    (h : (d.map Prod.fst).Nodup) :
    ((setKey d k v).map Prod.fst).Nodup := by
  rw [keys_setKey]
  split
  · exact h
  · next hc =>
    rw [List.nodup_append]
    refine ⟨h, List.nodup_singleton k, ?_⟩
    intro a ha hb
    rw [List.mem_singleton] at hb
    subst hb
    rcases List.mem_map.mp ha with ⟨p, hp, hpk⟩
    have : containsKey d a = true := by
      rw [containsKey]
      exact List.any_eq_true.mpr ⟨p, hp, by simp [hpk]⟩
    simp_all

theorem parse_kv_keys_nodup (text : String) (b : Bool) :
    ((parse_kv text b).map Prod.fst).Nodup := by
  rw [parse_kv]
  split
  · split
    · exact List.nodup_nil
    · exact List.nodup_singleton _
  · have main : ∀ (toks : List String) (acc : Dict),
        ((acc.map Prod.fst).Nodup) →
        ((toks.foldl
          (fun acc tok =>
            match splitFirstEq tok.data with
            | none => acc
            | some (k, v) =>
                setKey acc (String.mk k) (Value.vstr (String.mk v)))
          acc).map Prod.fst).Nodup := by
      intro toks
      induction toks with
      | nil => intro acc h; exact h
      | cons t rest ih =>
        intro acc h
        rw [List.foldl_cons]
        cases splitFirstEq t.data with
        | none => exact ih acc h
        | some p => exact ih _ (nodup_keys_setKey acc _ _ h)
    exact main _ [] List.nodup_nil

theorem updateDict_nil_parse_kv (text : String) (b : Bool) :
    updateDict [] (parse_kv text b) = parse_kv text b :=
  updateDict_nil_of_nodup _ (parse_kv_keys_nodup text b)

/-- `_split_module_string` through the token list of the input. -/
theorem split_module_string_of_pySplit (s : String) (x : String)
    (restToks : List String) (h : pySplit s = x :: restToks) :
    split_module_string s = .ok (x, joinWith " " restToks) := by
  rw [split_module_string, h]
  cases restToks with
  | nil => rfl
  | cons t rest => rfl

theorem containsKey_delKey_self (m : Dict) (k : String) :
    containsKey (delKey m k) k = false := by
  induction m with
  | nil => rfl
  | cons p rest ih =>
    rw [delKey, List.filter_cons]
    by_cases hp : (p.1 == k) = true
    · rw [if_neg (by simp [hp])]
      exact ih
    · rw [if_pos (by simp [hp])]
      have hp' : (p.1 == k) = false := by simpa using hp
      rw [containsKey, List.any_cons, hp', Bool.false_or]
      exact ih

theorem nodup_keys_delKey (m : Dict) (k : String)
    (h : (m.map Prod.fst).Nodup) :
    ((delKey m k).map Prod.fst).Nodup := by
  refine List.Nodup.sublist ?_ h
  exact List.Sublist.map Prod.fst (List.filter_sublist m)

/-! ## Reduction lemmas for the normalization pipeline -/

theorem initialFinalArgs_dict (d : Dict) :
    initialFinalArgs (Value.vdict d) = .ok (updateDict [] d) := by
  cases d with
  | nil => rfl
  | cons p rest => rfl

theorem mergeFinalArgs_dict (a : Value) (f : Dict) (m : Dict) :
    mergeFinalArgs a f (Value.vdict m) = .ok (a, updateDict f m) := by
  cases m with
  | nil => rfl
  | cons p rest => rfl

theorem containsKey_of_lookup (d : Dict) (k : String) (v : Value)
    (h : lookupKey d k = some v) : containsKey d k = true := by
  induction d with
  | nil => simp [lookupKey] at h
  | cons p rest ih =>
    rw [lookupKey] at h
    by_cases hp : (p.1 == k) = true
    · simp only [containsKey, List.any_cons, hp, Bool.true_or]
    · rw [if_neg (by simp_all)] at h
      have hr := ih h
      simp only [containsKey] at hr ⊢
      simp only [List.any_cons, hr, Bool.or_true]

theorem unwrapArgs_found (m : Dict) (w : Value)
    (h : lookupKey m "args" = some w) :
    unwrapArgs (Value.vdict m) = w := by
  have hc : containsKey m "args" = true := containsKey_of_lookup m "args" w h
  have hne : m.isEmpty = false := by
    cases m with
    | nil => simp [containsKey] at hc
    | cons p rest => rfl
  rw [unwrapArgs, hne, hc]
  simp [getKeyD, h]

theorem unwrapArgs_not_found (m : Dict)
    (h : containsKey m "args" = false) :
    unwrapArgs (Value.vdict m) = Value.vdict m := by
  rw [unwrapArgs, h]
  simp

/-- Reduction of `_normalize_parameters` in the old-style case (the action
is already a known string). -/
theorem normalize_parameters_oldstyle (ds : Dict) (thing : Value)
    (k : String) (add : Value) :
    normalize_parameters ds thing (Value.vstr k) add =
      (initialFinalArgs add >>= fun final0 =>
        normalize_old_style_args ds thing (Value.vstr k) >>= fun a =>
          mergeFinalArgs (Value.vstr k) final0 (unwrapArgs a)) := by
  rw [normalize_parameters]
  cases initialFinalArgs add with
  | error e => rfl
  | ok f =>
    simp only [exceptBind_ok]
    rw [if_pos (show Value.vstr k ≠ Value.vnone by simp)]
    cases normalize_old_style_args ds thing (Value.vstr k) with
    | error e => rfl
    | ok a => rfl

/-- Reduction of `_normalize_parameters` in the new-style case (no action
known yet). -/
theorem normalize_parameters_newstyle (ds : Dict) (thing : Value)
    (add : Value) :
    normalize_parameters ds thing Value.vnone add =
      (initialFinalArgs add >>= fun final0 =>
        normalize_new_style_args ds thing >>= fun p =>
          mergeFinalArgs p.1 final0 (unwrapArgs p.2)) := by
  rw [normalize_parameters]
  cases initialFinalArgs add with
  | error e => rfl
  | ok f =>
    simp only [exceptBind_ok]
    rw [if_neg (show ¬(Value.vnone ≠ Value.vnone) by simp)]


/-! ## Lemmas about the registry scan -/

/-- A record slice with no registry (or `meta`) key leaves the scan state
untouched. -/
theorem scanModules_no_match (isKnown : String → Bool) (task_ds : Dict)
    (add : Value) :
    ∀ (l : List (String × Value)) (a : Value) (ar : Dict),
      (∀ p ∈ l, (isKnown p.1 || p.1 == "meta") = false) →
      scanModules isKnown task_ds add l a ar = .ok (a, ar)
  | [], _, _, _ => rfl
  | (k, v) :: rest, a, ar, h => by
      have hk := h (k, v) (List.mem_cons_self _ _)
      rw [scanModules, hk]
      simp only [Bool.false_eq_true, if_false]
      exact scanModules_no_match isKnown task_ds add rest a ar
        (fun p hp => h p (List.mem_cons_of_mem _ hp))

/-- Once an action is determined, any further registry (or `meta`) key makes
the scan fail with "conflicting action statements". -/
theorem scanModules_conflict (isKnown : String → Bool) (task_ds : Dict)
    (add : Value) :
    ∀ (l : List (String × Value)) (a : Value) (ar : Dict),
      a ≠ Value.vnone →
      (∃ p ∈ l, (isKnown p.1 || p.1 == "meta") = true) →
      scanModules isKnown task_ds add l a ar =
        .error (.ansibleParserError "conflicting action statements" task_ds)
  | [], a, ar, _, hex => by
      rcases hex with ⟨p, hp, _⟩
      cases hp
  | (k, v) :: rest, a, ar, ha, hex => by
      by_cases hk : (isKnown k || k == "meta") = true
      · rw [scanModules, hk, if_pos rfl, if_pos ha]
      · have hk' : (isKnown k || k == "meta") = false := by
          simpa using hk
        rw [scanModules, hk']
        simp only [Bool.false_eq_true, if_false]
        refine scanModules_conflict isKnown task_ds add rest a ar ha ?_
        rcases hex with ⟨p, hp, hmatch⟩
        rcases List.mem_cons.mp hp with rfl | hmem
        · exact absurd hmatch hk
        · exact ⟨p, hmem, hmatch⟩

theorem mergeFinalArgs_inv (a : Value) (f : Dict) (x : Value) (b : Value)
    (br : Dict) (h : mergeFinalArgs a f x = .ok (b, br)) : b = a := by
  cases x with
  | vdict m =>
    rw [mergeFinalArgs_dict] at h
    injection h with h1
    rw [Prod.mk.injEq] at h1
    exact h1.1.symm
  | vstr s =>
    have he : mergeFinalArgs a f (Value.vstr s) =
        if pyTruthy (Value.vstr s) = true then Except.error PErr.typeErr
        else pure (a, f) := rfl
    rw [he] at h
    split at h
    · simp at h
    · rw [exceptPure_eq_ok] at h
      injection h with h1
      rw [Prod.mk.injEq] at h1
      exact h1.1.symm
  | vnone =>
    have he : mergeFinalArgs a f Value.vnone = Except.ok (a, f) := rfl
    rw [he] at h
    injection h with h1
    rw [Prod.mk.injEq] at h1
    exact h1.1.symm
  | vbool c =>
    have he : mergeFinalArgs a f (Value.vbool c) =
        if pyTruthy (Value.vbool c) = true then Except.error PErr.typeErr
        else pure (a, f) := rfl
    rw [he] at h
    split at h
    · simp at h
    · rw [exceptPure_eq_ok] at h
      injection h with h1
      rw [Prod.mk.injEq] at h1
      exact h1.1.symm
  | vint n =>
    have he : mergeFinalArgs a f (Value.vint n) =
        if pyTruthy (Value.vint n) = true then Except.error PErr.typeErr
        else pure (a, f) := rfl
    rw [he] at h
    split at h
    · simp at h
    · rw [exceptPure_eq_ok] at h
      injection h with h1
      rw [Prod.mk.injEq] at h1
      exact h1.1.symm
  | vother t c =>
    have he : mergeFinalArgs a f (Value.vother t c) =
        if pyTruthy (Value.vother t c) = true then Except.error PErr.typeErr
        else pure (a, f) := rfl
    rw [he] at h
    split at h
    · simp at h
    · rw [exceptPure_eq_ok] at h
      injection h with h1
      rw [Prod.mk.injEq] at h1
      exact h1.1.symm

/-- `_normalize_parameters` with a known action string returns exactly that
action. -/
theorem normalize_parameters_action_stable (ds : Dict) (thing : Value)
    (k : String) (add : Value) (a : Value) (ar : Dict)
    (h : normalize_parameters ds thing (Value.vstr k) add = .ok (a, ar)) :
    a = Value.vstr k := by
  rw [normalize_parameters_oldstyle] at h
  cases hI : initialFinalArgs add with
  | error e => rw [hI] at h; exact absurd h (by simp)
  | ok f =>
    rw [hI, exceptBind_ok] at h
    cases hO : normalize_old_style_args ds thing (Value.vstr k) with
    | error e => rw [hO] at h; exact absurd h (by simp)
    | ok w =>
      rw [hO, exceptBind_ok] at h
      exact mergeFinalArgs_inv _ f _ a ar h

/-- A scan whose slice holds exactly one registry (or `meta`) key, whose
value normalizes successfully, returns that normalization. -/
theorem scanModules_single (isKnown : String → Bool) (task_ds : Dict)
    (add : Value) :
    ∀ (l : List (String × Value)) (ar : Dict) (k : String) (v : Value)
      (a2 : Value) (ar2 : Dict),
      l.filter (fun p => isKnown p.1 || p.1 == "meta") = [(k, v)] →
      normalize_parameters task_ds v (Value.vstr k) add = .ok (a2, ar2) →
      scanModules isKnown task_ds add l Value.vnone ar = .ok (a2, ar2)
  | [], ar, k, v, a2, ar2, hf, _ => by simp at hf
  | (i, w) :: rest, ar, k, v, a2, ar2, hf, hnorm => by
      by_cases hm : (isKnown i || i == "meta") = true
      · simp only [List.filter_cons] at hf
        rw [if_pos (by simpa using hm)] at hf
        injection hf with h1 h2
        injection h1 with hik hwv
        subst hik; subst hwv
        rw [scanModules, hm, if_pos rfl,
          if_neg (show ¬(Value.vnone ≠ Value.vnone) by simp), hnorm,
          exceptBind_ok]
        refine scanModules_no_match isKnown task_ds add rest a2 ar2 ?_
        intro p hp
        by_cases hmp : (isKnown p.1 || p.1 == "meta") = true
        · exact absurd (List.filter_eq_nil_iff.mp h2 p hp) (by simp [hmp])
        · simpa using hmp
      · have hm' : (isKnown i || i == "meta") = false := by simpa using hm
        simp only [List.filter_cons] at hf
        rw [if_neg (by simp [hm'])] at hf
        rw [scanModules, hm']
        simp only [Bool.false_eq_true, if_false]
        exact scanModules_single isKnown task_ds add rest ar k v a2 ar2
          hf hnorm

/-- A scan whose slice holds a first registry (or `meta`) key followed by at
least one more, with the first value normalizing successfully, fails with
"conflicting action statements". -/
theorem scanModules_conflict_two (isKnown : String → Bool) (task_ds : Dict)
    (add : Value) :
    ∀ (l : List (String × Value)) (ar : Dict) (k : String) (v : Value)
      (t : List (String × Value)) (a2 : Value) (ar2 : Dict),
      l.filter (fun p => isKnown p.1 || p.1 == "meta") = (k, v) :: t →
      t ≠ [] →
      normalize_parameters task_ds v (Value.vstr k) add = .ok (a2, ar2) →
      scanModules isKnown task_ds add l Value.vnone ar =
        .error (.ansibleParserError "conflicting action statements" task_ds)
  | [], ar, k, v, t, a2, ar2, hf, _, _ => by simp at hf
  | (i, w) :: rest, ar, k, v, t, a2, ar2, hf, ht, hnorm => by
      by_cases hm : (isKnown i || i == "meta") = true
      · simp only [List.filter_cons] at hf
        rw [if_pos (by simpa using hm)] at hf
        injection hf with h1 h2
        injection h1 with hik hwv
        subst hik; subst hwv
        rw [scanModules, hm, if_pos rfl,
          if_neg (show ¬(Value.vnone ≠ Value.vnone) by simp), hnorm,
          exceptBind_ok]
        have ha2 : a2 = Value.vstr i :=
          normalize_parameters_action_stable task_ds w i add a2 ar2 hnorm
        refine scanModules_conflict isKnown task_ds add rest a2 ar2
          (by simp [ha2]) ?_
        by_contra hnone
        push_neg at hnone
        refine ht ?_
        rw [← h2]
        rw [List.filter_eq_nil_iff]
        intro p hp
        have := hnone p hp
        simp_all
      · have hm' : (isKnown i || i == "meta") = false := by simpa using hm
        simp only [List.filter_cons] at hf
        rw [if_neg (by simp [hm'])] at hf
        rw [scanModules, hm']
        simp only [Bool.false_eq_true, if_false]
        exact scanModules_conflict_two isKnown task_ds add rest ar k v t
          a2 ar2 hf ht hnorm

/-! ## Lemmas about the shell/command post-processing -/

theorem handle_shell_weirdness_shell (ar : Dict) :
    handle_shell_weirdness (Value.vstr "shell") ar =
      (Value.vstr "command", setKey ar "_uses_shell" (Value.vbool true)) := by
  have h1 : (Value.vstr "shell" == Value.vstr "shell") = true := by decide
  simp [handle_shell_weirdness, h1]

theorem handle_shell_weirdness_of_ne (a : Value) (ar : Dict)
    (h : a ≠ Value.vstr "shell") :
    handle_shell_weirdness a ar = (a, ar) := by
  by_cases hc : a = Value.vstr "command"
  · subst hc
    have h1 : (Value.vstr "command" == Value.vstr "shell") = false := by decide
    have h2 : (Value.vstr "command" == Value.vstr "command") = true := by decide
    simp [handle_shell_weirdness, h1, h2]
  · have h1 : (a == Value.vstr "shell") = false := by
      cases hb : a == Value.vstr "shell"
      · rfl
      · exact absurd (eq_of_beq hb) h
    have h2 : (a == Value.vstr "command") = false := by
      cases hb : a == Value.vstr "command"
      · rfl
      · exact absurd (eq_of_beq hb) hc
    simp [handle_shell_weirdness, h1, h2]

/-! ## Claim C5 -/

/-- C5: a record with no `action` key, no `local_action` key, and no key
matching a known operation name or the reserved name `meta` makes `parse`
fail with the `AnsibleParserError` message "no action detected in task". -/
theorem C5_no_action_detected (isKnown : String → Bool) (ds : Dict)
    (hA : containsKey ds "action" = false)
    (hL : containsKey ds "local_action" = false)
    (hM : ∀ p ∈ ds, (isKnown p.1 || p.1 == "meta") = false) :
    parse isKnown ds =
      .error (.ansibleParserError "no action detected in task" ds) := by
  have hscan := scanModules_no_match isKnown ds
    (getKeyD ds "args" (Value.vdict [])) ds Value.vnone [] hM
  simp [parse, parsePre, parseActionStages, hA, hL, hscan]

/-! ## Claim C1 -/

/-- C1 counterexample: for `{action: "shell echo hi"}` the claim promises
operation `shell` with parameters `tokenize("echo hi", raw)`, but the
shell post-processing returns `command` and injects `_uses_shell`. -/
theorem C1_counterexample :
    parse (fun _ => false) [("action", Value.vstr "shell echo hi")] ≠
      .ok (Value.vstr "shell", parse_kv "echo hi" true, none) := by
  decide

/-- C1 (amended): a record whose only special key is exactly one of
`action`/`local_action`, bound to a string "X rest...", parses to operation
X with parameters `tokenize("rest...", raw)` (raw iff X is command, shell
or script) and the stated delegate — provided the tokenized parameters
carry no `args` key (else they are unwrapped once) and with the shell
post-processing applied when X = shell (operation becomes `command`,
`_uses_shell = true` is injected). -/
theorem C1_action_string_form (isKnown : String → Bool) (ds : Dict)
    (key : String) (s x : String) (restToks : List String)
    (hkey : key = "action" ∨ key = "local_action")
    (hval : lookupKey ds key = some (Value.vstr s))
    (hother : containsKey ds
      (if key = "action" then "local_action" else "action") = false)
    (hargs : containsKey ds "args" = false)
    (hM : ∀ p ∈ ds, (isKnown p.1 || p.1 == "meta") = false)
    (hsplit : pySplit s = x :: restToks)
    (hnoargs : containsKey
      (parse_kv (joinWith " " restToks) (checkRawFor x)) "args" = false) :
    parse isKnown ds = .ok
      ((if x = "shell" then Value.vstr "command" else Value.vstr x),
       (if x = "shell" then
          setKey (parse_kv (joinWith " " restToks) (checkRawFor x))
            "_uses_shell" (Value.vbool true)
        else parse_kv (joinWith " " restToks) (checkRawFor x)),
       (if key = "action" then none else some "localhost")) := by
  have hadd : getKeyD ds "args" (Value.vdict []) = Value.vdict [] :=
    getKeyD_of_not_contains ds "args" _ hargs
  have hI : initialFinalArgs (Value.vdict []) = .ok [] := rfl
  have hS : split_module_string s = .ok (x, joinWith " " restToks) :=
    split_module_string_of_pySplit s x restToks hsplit
  have hN : normalize_new_style_args ds (Value.vstr s) =
      .ok (Value.vstr x,
        Value.vdict (parse_kv (joinWith " " restToks) (checkRawFor x))) := by
    rw [normalize_new_style_args, hS]
    rfl
  have hnorm : normalize_parameters ds (Value.vstr s) Value.vnone
      (Value.vdict []) =
      .ok (Value.vstr x, parse_kv (joinWith " " restToks) (checkRawFor x)) := by
    rw [normalize_parameters_newstyle, hI, exceptBind_ok, hN, exceptBind_ok,
      unwrapArgs_not_found _ hnoargs, mergeFinalArgs_dict,
      updateDict_nil_parse_kv]
  rcases hkey with rfl | rfl
  · have hA : containsKey ds "action" = true :=
      containsKey_of_lookup ds "action" _ hval
    have hL : containsKey ds "local_action" = false := by simpa using hother
    have hthing : getKeyD ds "action" Value.vnone = Value.vstr s :=
      getKeyD_of_lookup ds "action" _ _ hval
    have hscan := scanModules_no_match isKnown ds (Value.vdict []) ds
      (Value.vstr x) (parse_kv (joinWith " " restToks) (checkRawFor x)) hM
    have hpre : parsePre isKnown ds = .ok
        (Value.vstr x, parse_kv (joinWith " " restToks) (checkRawFor x),
          none) := by
      simp [parsePre, parseActionStages, hA, hadd, hthing, hnorm, hL, hscan]
    by_cases hx : x = "shell"
    · subst hx
      simp [parse, hpre, handle_shell_weirdness_shell]
    · have hxne : Value.vstr x ≠ Value.vstr "shell" := by
        intro hc
        injection hc with hc'
        exact hx hc'
      simp [parse, hpre, handle_shell_weirdness_of_ne _ _ hxne, hx]
  · have hL : containsKey ds "local_action" = true :=
      containsKey_of_lookup ds "local_action" _ hval
    have hA : containsKey ds "action" = false := by simpa using hother
    have hthing : getKeyD ds "local_action" (Value.vstr "") = Value.vstr s :=
      getKeyD_of_lookup ds "local_action" _ _ hval
    have hscan := scanModules_no_match isKnown ds (Value.vdict []) ds
      (Value.vstr x) (parse_kv (joinWith " " restToks) (checkRawFor x)) hM
    have hpre : parsePre isKnown ds = .ok
        (Value.vstr x, parse_kv (joinWith " " restToks) (checkRawFor x),
          some "localhost") := by
      simp [parsePre, parseActionStages, hA, hadd, hthing, hnorm, hL, hscan]
    by_cases hx : x = "shell"
    · subst hx
      simp [parse, hpre, handle_shell_weirdness_shell]
    · have hxne : Value.vstr x ≠ Value.vstr "shell" := by
        intro hc
        injection hc with hc'
        exact hx hc'
      simp [parse, hpre, handle_shell_weirdness_of_ne _ _ hxne, hx]

/-- C1 witness: `{action: "copy src=a dest=b"}` with an empty registry. -/
theorem C1_witness :
    pySplit "copy src=a dest=b" = "copy" :: ["src=a", "dest=b"] ∧
    parse (fun _ => false) [("action", Value.vstr "copy src=a dest=b")] =
      .ok (Value.vstr "copy",
        [("src", Value.vstr "a"), ("dest", Value.vstr "b")], none) :=
  ⟨by decide,
    (C1_action_string_form (fun _ => false)
      [("action", Value.vstr "copy src=a dest=b")] "action"
      "copy src=a dest=b" "copy" ["src=a", "dest=b"] (Or.inl rfl)
      (by decide) (by decide) (by decide) (by decide) (by decide)
      (by decide)).trans (by decide)⟩

/-! ## Claim C6 -/

/-- C6: when the pipeline determines the operation `shell`, `parse` returns
operation `command` with `_uses_shell = true` injected into the
parameters; when it determines `command`, the parameters are returned
unchanged (so no `_uses_shell` appears that was not already there); any
operation other than `shell` is returned under its own name. -/
theorem C6_shell_rewriting (isKnown : String → Bool) (ds : Dict)
    (a : Value) (ar : Dict) (d : Option String)
    (h : parsePre isKnown ds = .ok (a, ar, d)) :
    (a = Value.vstr "shell" →
      parse isKnown ds =
        .ok (Value.vstr "command",
          setKey ar "_uses_shell" (Value.vbool true), d) ∧
      lookupKey (setKey ar "_uses_shell" (Value.vbool true)) "_uses_shell" =
        some (Value.vbool true)) ∧
    (a = Value.vstr "command" →
      parse isKnown ds = .ok (Value.vstr "command", ar, d) ∧
      lookupKey ar "_uses_shell" = lookupKey ar "_uses_shell") ∧
    (a ≠ Value.vstr "shell" → parse isKnown ds = .ok (a, ar, d)) := by
  refine ⟨?_, ?_, ?_⟩
  · rintro rfl
    refine ⟨?_, lookupKey_setKey_self ar _ _⟩
    simp [parse, h, handle_shell_weirdness_shell]
  · rintro rfl
    refine ⟨?_, rfl⟩
    simp [parse, h,
      handle_shell_weirdness_of_ne (Value.vstr "command") ar (by simp)]
  · intro hne
    simp [parse, h, handle_shell_weirdness_of_ne a ar hne]

/-- C6 witness: the record `{shell: "hi"}` over a registry that knows
`shell`. -/
theorem C6_witness :
    parsePre (fun s => s == "shell") [("shell", Value.vstr "hi")] =
      .ok (Value.vstr "shell", [("_raw_params", Value.vstr "hi")], none) ∧
    parse (fun s => s == "shell") [("shell", Value.vstr "hi")] =
      .ok (Value.vstr "command",
        [("_raw_params", Value.vstr "hi"),
         ("_uses_shell", Value.vbool true)], none) := by
  constructor
  · decide
  · exact ((C6_shell_rewriting (fun s => s == "shell")
      [("shell", Value.vstr "hi")] (Value.vstr "shell")
      [("_raw_params", Value.vstr "hi")] none (by decide)).1 rfl).1.trans
      (by decide)

/-! ## Claim C10 -/

/-- C10: in `_normalize_parameters`, whenever the normalized parameter
mapping contains an `args` key (with a mapping value), the whole mapping is
replaced by that key's value, siblings and all — the unwrap is not limited
to the case of `args` being the sole key; a sibling key survives only
through the shared defaults. -/
theorem C10_args_unwrap_discards_siblings (ds : Dict) (m : Dict)
    (a : String) (add : Dict) (w : Dict)
    (hargs : lookupKey m "args" = some (Value.vdict w)) :
    normalize_parameters ds (Value.vdict m) (Value.vstr a)
        (Value.vdict add) =
      .ok (Value.vstr a, updateDict (updateDict [] add) w) ∧
    (∀ s, containsKey m s = true → containsKey w s = false →
      containsKey add s = false →
      containsKey (updateDict (updateDict [] add) w) s = false) := by
  constructor
  · rw [normalize_parameters_oldstyle, initialFinalArgs_dict]
    simp only [exceptBind_ok]
    rw [show normalize_old_style_args ds (Value.vdict m) (Value.vstr a) =
        .ok (Value.vdict m) from rfl]
    simp only [exceptBind_ok]
    rw [unwrapArgs_found m _ hargs, mergeFinalArgs_dict]
  · intro s hm hw hadd
    rw [containsKey_updateDict, containsKey_updateDict, hw, hadd]
    rfl

/-- C10 witness: `{copy: {args: {a: "1"}, sibling: "2"}}` — the sibling key
is dropped even though `args` is not the sole key. -/
theorem C10_witness :
    normalize_parameters [] (Value.vdict
        [("args", Value.vdict [("a", Value.vstr "1")]),
         ("sibling", Value.vstr "2")])
      (Value.vstr "copy") (Value.vdict []) =
      .ok (Value.vstr "copy",
        updateDict (updateDict [] []) [("a", Value.vstr "1")]) ∧
    containsKey (updateDict (updateDict [] [])
      [("a", Value.vstr "1")]) "sibling" = false :=
  ⟨(C10_args_unwrap_discards_siblings []
      [("args", Value.vdict [("a", Value.vstr "1")]),
       ("sibling", Value.vstr "2")] "copy" [] [("a", Value.vstr "1")]
      (by decide)).1,
   (C10_args_unwrap_discards_siblings []
      [("args", Value.vdict [("a", Value.vstr "1")]),
       ("sibling", Value.vstr "2")] "copy" [] [("a", Value.vstr "1")]
      (by decide)).2
     "sibling" (by decide) (by decide) (by decide)⟩

/-! ## Claim C2 -/

/-- C2 counterexample: `{action: {}, local_action: "ping"}` has both keys
present, yet `parse` succeeds — the empty dict under `action` determines no
operation, so the mutual-exclusion check does not fire. -/
theorem C2_counterexample :
    parse (fun _ => false)
        [("action", Value.vdict []), ("local_action", Value.vstr "ping")] =
      .ok (Value.vstr "ping", [], some "localhost") ∧
    parse (fun _ => false)
        [("action", Value.vdict []), ("local_action", Value.vstr "ping")] ≠
      .error (.ansibleParserError
        "action and local_action are mutually exclusive"
        [("action", Value.vdict []), ("local_action", Value.vstr "ping")]) :=
  ⟨by decide, by decide⟩

/-- C2 (amended): when both `action` and `local_action` are present and the
`action` value actually determines an operation (normalizes to a non-null
action), `parse` fails with the `AnsibleParserError` message
"action and local_action are mutually exclusive". -/
theorem C2_mutual_exclusion (isKnown : String → Bool) (ds : Dict)
    (a : Value) (ar : Dict)
    (hA : containsKey ds "action" = true)
    (hL : containsKey ds "local_action" = true)
    (hnorm : normalize_parameters ds (getKeyD ds "action" Value.vnone)
        Value.vnone (getKeyD ds "args" (Value.vdict [])) = .ok (a, ar))
    (hne : a ≠ Value.vnone) :
    parse isKnown ds =
      .error (.ansibleParserError
        "action and local_action are mutually exclusive" ds) := by
  simp [parse, parsePre, parseActionStages, hA, hL, hnorm, hne]

/-- C2 witness: the record `{action: "ping", local_action: "ping"}`. -/
theorem C2_witness :
    containsKey [("action", Value.vstr "ping"),
      ("local_action", Value.vstr "ping")] "action" = true ∧
    parse (fun _ => false)
        [("action", Value.vstr "ping"), ("local_action", Value.vstr "ping")] =
      .error (.ansibleParserError
        "action and local_action are mutually exclusive"
        [("action", Value.vstr "ping"), ("local_action", Value.vstr "ping")]) :=
  ⟨by decide,
    C2_mutual_exclusion (fun _ => false)
      [("action", Value.vstr "ping"), ("local_action", Value.vstr "ping")]
      (Value.vstr "ping") [] (by decide) (by decide) (by decide) (by decide)⟩

/-! ## Claim C5 -/

/-- C5 witness: the record `{foo: "x"}` with an empty registry. -/
theorem C5_witness :
    containsKey [(("foo" : String), Value.vstr "x")] "action" = false ∧
    containsKey [(("foo" : String), Value.vstr "x")] "local_action" = false ∧
    parse (fun _ => false) [(("foo" : String), Value.vstr "x")] =
      .error (.ansibleParserError "no action detected in task"
        [(("foo" : String), Value.vstr "x")]) :=
  ⟨by decide, by decide,
    C5_no_action_detected (fun _ => false) [("foo", Value.vstr "x")]
      (by decide) (by decide) (by decide)⟩

/-! ## Claim C3 -/

/-- C3 counterexample: `{copy: {module: "x"}}` (with `copy` a known
operation) parses successfully with a residual `module` key in the
parameters — the old-style path uses the mapping as is. -/
theorem C3_counterexample :
    parse (fun s => s == "copy")
        [("copy", Value.vdict [("module", Value.vstr "x")])] =
      .ok (Value.vstr "copy", [("module", Value.vstr "x")], none) ∧
    containsKey [("module", Value.vstr "x")] "module" = true :=
  ⟨by decide, by decide⟩

/-- C3 (amended): the `module` key is stripped only in the structural
new-style path — an `action`/`local_action` value that is a mapping with a
`module` field: there the returned parameters are the mapping minus
`module`, and contain neither `module` nor (when none was nested) `args`;
a mapping value sitting under a known-operation key keeps its `module`
key. -/
theorem C3_module_stripped_action_mapping (isKnown : String → Bool)
    (ds : Dict) (key : String) (m : Dict) (a : String)
    (hkey : key = "action" ∨ key = "local_action")
    (hval : lookupKey ds key = some (Value.vdict m))
    (hother : containsKey ds
      (if key = "action" then "local_action" else "action") = false)
    (hargs : containsKey ds "args" = false)
    (hM : ∀ p ∈ ds, (isKnown p.1 || p.1 == "meta") = false)
    (hm : (m.map Prod.fst).Nodup)
    (hmod : lookupKey m "module" = some (Value.vstr a))
    (hnoargs : containsKey (delKey m "module") "args" = false) :
    parse isKnown ds = .ok
      ((if a = "shell" then Value.vstr "command" else Value.vstr a),
       (if a = "shell" then
          setKey (delKey m "module") "_uses_shell" (Value.vbool true)
        else delKey m "module"),
       (if key = "action" then none else some "localhost")) ∧
    containsKey (delKey m "module") "module" = false ∧
    containsKey (delKey m "module") "args" = false := by
  have hadd : getKeyD ds "args" (Value.vdict []) = Value.vdict [] :=
    getKeyD_of_not_contains ds "args" _ hargs
  have hI : initialFinalArgs (Value.vdict []) = .ok [] := rfl
  have hcm : containsKey m "module" = true :=
    containsKey_of_lookup m "module" _ hmod
  have hN : normalize_new_style_args ds (Value.vdict m) =
      .ok (Value.vstr a, Value.vdict (delKey m "module")) := by
    rw [normalize_new_style_args, if_pos hcm,
      getKeyD_of_lookup m "module" _ _ hmod]
  have hdel : updateDict [] (delKey m "module") = delKey m "module" :=
    updateDict_nil_of_nodup _ (nodup_keys_delKey m "module" hm)
  have hnorm : normalize_parameters ds (Value.vdict m) Value.vnone
      (Value.vdict []) = .ok (Value.vstr a, delKey m "module") := by
    rw [normalize_parameters_newstyle, hI, exceptBind_ok, hN, exceptBind_ok,
      unwrapArgs_not_found _ hnoargs, mergeFinalArgs_dict, hdel]
  have hscan := scanModules_no_match isKnown ds (Value.vdict []) ds
    (Value.vstr a) (delKey m "module") hM
  have hpre : parsePre isKnown ds = .ok
      (Value.vstr a, delKey m "module",
        if key = "action" then none else some "localhost") := by
    rcases hkey with rfl | rfl
    · have hA : containsKey ds "action" = true :=
        containsKey_of_lookup ds "action" _ hval
      have hL : containsKey ds "local_action" = false := by
        simpa using hother
      have hthing : getKeyD ds "action" Value.vnone = Value.vdict m :=
        getKeyD_of_lookup ds "action" _ _ hval
      simp [parsePre, parseActionStages, hA, hadd, hthing, hnorm, hL, hscan]
    · have hL : containsKey ds "local_action" = true :=
        containsKey_of_lookup ds "local_action" _ hval
      have hA : containsKey ds "action" = false := by
        simpa using hother
      have hthing : getKeyD ds "local_action" (Value.vstr "") =
          Value.vdict m :=
        getKeyD_of_lookup ds "local_action" _ _ hval
      simp [parsePre, parseActionStages, hA, hadd, hthing, hnorm, hL, hscan]
  refine ⟨?_, containsKey_delKey_self m "module", hnoargs⟩
  by_cases ha : a = "shell"
  · subst ha
    simp [parse, hpre, handle_shell_weirdness_shell]
  · have hane : Value.vstr a ≠ Value.vstr "shell" := by
      intro hc
      injection hc with hc'
      exact ha hc'
    simp [parse, hpre, handle_shell_weirdness_of_ne _ _ hane, ha]

/-- C3 witness: `{local_action: {module: "copy", src: "a"}}` — the
`module` key is stripped and the delegate is localhost. -/
theorem C3_witness :
    parse (fun _ => false)
        [("local_action", Value.vdict
          [("module", Value.vstr "copy"), ("src", Value.vstr "a")])] =
      .ok (Value.vstr "copy", [("src", Value.vstr "a")],
        some "localhost") ∧
    containsKey [(("src" : String), Value.vstr "a")] "module" = false :=
  ⟨((C3_module_stripped_action_mapping (fun _ => false)
      [("local_action", Value.vdict
        [("module", Value.vstr "copy"), ("src", Value.vstr "a")])]
      "local_action"
      [("module", Value.vstr "copy"), ("src", Value.vstr "a")] "copy"
      (Or.inr rfl) (by decide) (by decide) (by decide) (by decide)
      (by decide) (by decide) (by decide)).1).trans (by decide),
   by decide⟩

/-! ## Claim C4 -/

/-- C4 counterexample: `{copy: true, file: "x"}` holds two distinct known
operation keys, yet `parse` fails with the unexpected-parameter-type
message, not "conflicting action statements" — the first matched value is
normalized (and rejected) before the second key is seen. -/
theorem C4_counterexample :
    parse (fun s => s == "copy" || s == "file")
        [("copy", Value.vbool true), ("file", Value.vstr "x")] =
      .error (.ansibleParserError
        "unexpected parameter type in action: <type 'bool'>"
        [("copy", Value.vbool true), ("file", Value.vstr "x")]) ∧
    ("unexpected parameter type in action: <type 'bool'>" : String) ≠
      "conflicting action statements" :=
  ⟨by decide, by decide⟩

/-- C4 (amended): `parse` fails with "conflicting action statements"
whenever the `action`/`local_action` blocks complete without error leaving
a scan state `a0`: if `a0` is a determined operation (whether it came from
`action` or from `local_action`), any registry (or `meta`) key of the
record triggers the error; if `a0` is null (no such key, or one whose
value determined no operation), two matching keys — the first of whose
values normalizes without error — trigger it.  (When the first matched
value itself fails to normalize, that earlier unexpected-parameter-type
failure is reported instead.) -/
theorem C4_conflicting_actions (isKnown : String → Bool) (ds : Dict)
    (a0 : Value) (ar0 : Dict) (dl : Option String)
    (hstages : parseActionStages ds (getKeyD ds "args" (Value.vdict [])) =
      .ok (a0, ar0, dl))
    (h : (a0 ≠ Value.vnone ∧
          ∃ p ∈ ds, (isKnown p.1 || p.1 == "meta") = true) ∨
         (a0 = Value.vnone ∧
          ∃ k v t,
            ds.filter (fun p => isKnown p.1 || p.1 == "meta") = (k, v) :: t ∧
            t ≠ [] ∧
            ∃ a2 ar2, normalize_parameters ds v (Value.vstr k)
              (getKeyD ds "args" (Value.vdict [])) = .ok (a2, ar2))) :
    parse isKnown ds =
      .error (.ansibleParserError "conflicting action statements" ds) := by
  rcases h with ⟨hne, hex⟩ | ⟨ha0, k, v, t, hf, ht, a2, ar2, hnorm⟩
  · have hscan := scanModules_conflict isKnown ds
      (getKeyD ds "args" (Value.vdict [])) ds a0 ar0 hne hex
    simp [parse, parsePre, hstages, hscan]
  · subst ha0
    have hscan := scanModules_conflict_two isKnown ds
      (getKeyD ds "args" (Value.vdict [])) ds ar0 k v t a2 ar2 hf ht hnorm
    simp [parse, parsePre, hstages, hscan]

/-- C4 witness: `{copy: "x=1", file: "y=2"}` (two known-operation keys)
and `{local_action: "ping", copy: "x=1"}` (a match after `local_action`
determined the operation). -/
theorem C4_witness :
    parse (fun s => s == "copy" || s == "file")
        [("copy", Value.vstr "x=1"), ("file", Value.vstr "y=2")] =
      .error (.ansibleParserError "conflicting action statements"
        [("copy", Value.vstr "x=1"), ("file", Value.vstr "y=2")]) ∧
    parse (fun s => s == "copy")
        [("local_action", Value.vstr "ping"), ("copy", Value.vstr "x=1")] =
      .error (.ansibleParserError "conflicting action statements"
        [("local_action", Value.vstr "ping"), ("copy", Value.vstr "x=1")]) :=
  ⟨C4_conflicting_actions (fun s => s == "copy" || s == "file")
      [("copy", Value.vstr "x=1"), ("file", Value.vstr "y=2")]
      Value.vnone [] none (by decide)
      (Or.inr ⟨rfl, "copy", Value.vstr "x=1",
        [("file", Value.vstr "y=2")], by decide, by decide,
        Value.vstr "copy", [("x", Value.vstr "1")], by decide⟩),
   C4_conflicting_actions (fun s => s == "copy")
      [("local_action", Value.vstr "ping"), ("copy", Value.vstr "x=1")]
      (Value.vstr "ping") [] (some "localhost") (by decide)
      (Or.inl ⟨by decide,
        ⟨("copy", Value.vstr "x=1"), by decide, by decide⟩⟩)⟩

/-! ## Claim C7 -/

/-- C7 counterexample: for `{shell: "echo hi", args: {k1: "default"}}` the
returned parameters are not just the defaults overlaid with the structural
parameters — the shell post-processing additionally injects
`_uses_shell`. -/
theorem C7_counterexample :
    (parse (fun s => s == "shell")
        [("shell", Value.vstr "echo hi"),
         ("args", Value.vdict [("k1", Value.vstr "default")])]).map
      (fun r => r.2.1) ≠
      .ok (updateDict [("k1", Value.vstr "default")]
        (parse_kv "echo hi" true)) := by
  decide

/-- C7 (amended): a record whose unique registry (or `meta`) key carries a
value normalizing to a mapping without an `args` wrapper, together with a
top-level `args` mapping of defaults, parses to the defaults overlaid by
the normalized structural parameters (the structural value winning on every
collision) — except that when the operation is `shell` the post-processing
additionally injects `_uses_shell = true` and renames the operation to
`command`. -/
theorem C7_defaults_overlay (isKnown : String → Bool) (ds : Dict)
    (d : Dict) (k : String) (v : Value) (mw : Dict)
    (hA : containsKey ds "action" = false)
    (hL : containsKey ds "local_action" = false)
    (hargs : lookupKey ds "args" = some (Value.vdict d))
    (hd : (d.map Prod.fst).Nodup)
    (hone : ds.filter (fun p => isKnown p.1 || p.1 == "meta") = [(k, v)])
    (hold : normalize_old_style_args ds v (Value.vstr k) =
      .ok (Value.vdict mw))
    (hnoargs : containsKey mw "args" = false) :
    parse isKnown ds = .ok
      ((if k = "shell" then Value.vstr "command" else Value.vstr k),
       (if k = "shell" then
          setKey (updateDict d mw) "_uses_shell" (Value.vbool true)
        else updateDict d mw), none) := by
  have hadd : getKeyD ds "args" (Value.vdict []) = Value.vdict d :=
    getKeyD_of_lookup ds "args" _ _ hargs
  have hnil : updateDict [] d = d := updateDict_nil_of_nodup d hd
  have hnorm : normalize_parameters ds v (Value.vstr k) (Value.vdict d) =
      .ok (Value.vstr k, updateDict d mw) := by
    rw [normalize_parameters_oldstyle, initialFinalArgs_dict, exceptBind_ok,
      hold, exceptBind_ok, unwrapArgs_not_found _ hnoargs,
      mergeFinalArgs_dict, hnil]
  have hscan := scanModules_single isKnown ds (Value.vdict d) ds []
    k v (Value.vstr k) (updateDict d mw) hone hnorm
  have hpre : parsePre isKnown ds = .ok
      (Value.vstr k, updateDict d mw, none) := by
    simp [parsePre, parseActionStages, hA, hL, hadd, hscan]
  by_cases hk : k = "shell"
  · subst hk
    simp [parse, hpre, handle_shell_weirdness_shell]
  · have hkne : Value.vstr k ≠ Value.vstr "shell" := by
      intro hc
      injection hc with hc'
      exact hk hc'
    simp [parse, hpre, handle_shell_weirdness_of_ne _ _ hkne, hk]

/-- C7 witness: spec example `{copy: "k1=v1", args: {k1: "default",
k2: "default2"}}` gives `{k1: "v1", k2: "default2"}`. -/
theorem C7_witness :
    parse (fun s => s == "copy")
        [("copy", Value.vstr "k1=v1"),
         ("args", Value.vdict
           [("k1", Value.vstr "default"), ("k2", Value.vstr "default2")])] =
      .ok (Value.vstr "copy",
        [("k1", Value.vstr "v1"), ("k2", Value.vstr "default2")], none) :=
  (C7_defaults_overlay (fun s => s == "copy")
    [("copy", Value.vstr "k1=v1"),
     ("args", Value.vdict
       [("k1", Value.vstr "default"), ("k2", Value.vstr "default2")])]
    [("k1", Value.vstr "default"), ("k2", Value.vstr "default2")]
    "copy" (Value.vstr "k1=v1") [("k1", Value.vstr "v1")]
    (by decide) (by decide) (by decide) (by decide) (by decide) (by decide)
    (by decide)).trans (by decide)

/-! ## Claim C8 -/

theorem lookup_of_contains (d : Dict) (k : String)
    (h : containsKey d k = true) : ∃ v, lookupKey d k = some v := by
  induction d with
  | nil => simp [containsKey] at h
  | cons p rest ih =>
    by_cases hp : (p.1 == k) = true
    · exact ⟨p.2, by rw [lookupKey, if_pos hp]⟩
    · have hr : containsKey rest k = true := by
        simpa [containsKey, List.any_cons, hp] using h
      rcases ih hr with ⟨v, hv⟩
      exact ⟨v, by rw [lookupKey, if_neg hp]; exact hv⟩

theorem lookupKey_mem (d : Dict) (k : String) (v : Value)
    (h : lookupKey d k = some v) : ∃ p ∈ d, p.2 = v := by
  induction d with
  | nil => simp [lookupKey] at h
  | cons p rest ih =>
    rw [lookupKey] at h
    by_cases hp : (p.1 == k) = true
    · rw [if_pos hp] at h
      injection h with h1
      exact ⟨p, List.mem_cons_self _ _, h1⟩
    · rw [if_neg hp] at h
      rcases ih h with ⟨q, hq, hqv⟩
      exact ⟨q, List.mem_cons_of_mem _ hq, hqv⟩

theorem lookupKey_delKey_ne (m : Dict) (k k' : String) (hne : k' ≠ k) :
    lookupKey (delKey m k) k' = lookupKey m k' := by
  induction m with
  | nil => rfl
  | cons p rest ih =>
    rw [delKey, List.filter_cons]
    by_cases hp : (p.1 == k) = true
    · rw [if_neg (by simp [hp])]
      have hp1 : (p.1 == k') = false := by
        have hk := eq_of_beq hp
        simp only [hk]
        simpa using fun e => hne e.symm
      rw [show lookupKey (p :: rest) k' =
          if (p.1 == k') = true then some p.2 else lookupKey rest k'
        from rfl, hp1]
      simpa [delKey] using ih
    · rw [if_pos (by simp [hp])]
      rw [show lookupKey (p :: rest) k' =
          if (p.1 == k') = true then some p.2 else lookupKey rest k'
        from rfl]
      rw [show lookupKey (p :: List.filter (fun p => !(p.1 == k)) rest) k' =
          if (p.1 == k') = true then some p.2
          else lookupKey (List.filter (fun p => !(p.1 == k)) rest) k'
        from rfl]
      by_cases h2 : (p.1 == k') = true
      · rw [if_pos h2, if_pos h2]
      · rw [if_neg h2, if_neg h2]
        simpa [delKey] using ih

theorem initialFinalArgs_falsy (add : Value) (h : pyTruthy add = false) :
    initialFinalArgs add = .ok [] := by
  cases add with
  | vdict d =>
    have hd : d = [] := by
      cases d with
      | nil => rfl
      | cons p rest => simp [pyTruthy] at h
    subst hd
    rfl
  | vnone => rfl
  | vstr s =>
    have he : initialFinalArgs (Value.vstr s) =
        if pyTruthy (Value.vstr s) = true then Except.error PErr.typeErr
        else pure [] := rfl
    rw [he, if_neg (by simp [h])]
    rfl
  | vbool c =>
    cases c with
    | false => rfl
    | true => exact absurd h (by decide)
  | vint n =>
    have he : initialFinalArgs (Value.vint n) =
        if pyTruthy (Value.vint n) = true then Except.error PErr.typeErr
        else pure [] := rfl
    rw [he, if_neg (by simp [h])]
    rfl
  | vother t c =>
    cases c with
    | false => rfl
    | true => exact absurd h (by simp [pyTruthy])

theorem mergeFinalArgs_tame (a : Value) (f : Dict) (w : Value)
    (h : pyTruthy w = true → ∃ mm, w = Value.vdict mm) :
    ∃ r, mergeFinalArgs a f w = .ok r := by
  cases w with
  | vdict m => exact ⟨(a, updateDict f m), mergeFinalArgs_dict a f m⟩
  | vnone => exact ⟨(a, f), rfl⟩
  | vstr s =>
    have he : mergeFinalArgs a f (Value.vstr s) =
        if pyTruthy (Value.vstr s) = true then Except.error PErr.typeErr
        else pure (a, f) := rfl
    rw [he]
    split
    · next ht => exact absurd (h ht).choose_spec (by simp)
    · exact ⟨(a, f), rfl⟩
  | vbool c =>
    have he : mergeFinalArgs a f (Value.vbool c) =
        if pyTruthy (Value.vbool c) = true then Except.error PErr.typeErr
        else pure (a, f) := rfl
    rw [he]
    split
    · next ht => exact absurd (h ht).choose_spec (by simp)
    · exact ⟨(a, f), rfl⟩
  | vint n =>
    have he : mergeFinalArgs a f (Value.vint n) =
        if pyTruthy (Value.vint n) = true then Except.error PErr.typeErr
        else pure (a, f) := rfl
    rw [he]
    split
    · next ht => exact absurd (h ht).choose_spec (by simp)
    · exact ⟨(a, f), rfl⟩
  | vother t c =>
    have he : mergeFinalArgs a f (Value.vother t c) =
        if pyTruthy (Value.vother t c) = true then Except.error PErr.typeErr
        else pure (a, f) := rfl
    rw [he]
    split
    · next ht => exact absurd (h ht).choose_spec (by simp)
    · exact ⟨(a, f), rfl⟩

theorem unwrapArgs_tame (m : Dict)
    (h : (match lookupKey m "args" with
       | some (Value.vdict _) => true
       | some w => !(pyTruthy w)
       | none => true) = true) :
    pyTruthy (unwrapArgs (Value.vdict m)) = true →
      ∃ mm, unwrapArgs (Value.vdict m) = Value.vdict mm := by
  by_cases hc : containsKey m "args" = true
  · rcases lookup_of_contains m "args" hc with ⟨w, hw⟩
    rw [unwrapArgs_found m w hw]
    rw [hw] at h
    intro ht
    cases w with
    | vdict mm => exact ⟨mm, rfl⟩
    | vstr s =>
      have h' : (!(pyTruthy (Value.vstr s))) = true := h
      rw [ht] at h'
      exact absurd h' (by simp)
    | vnone => exact absurd ht (by simp [pyTruthy])
    | vbool c =>
      have h' : (!(pyTruthy (Value.vbool c))) = true := h
      rw [ht] at h'
      exact absurd h' (by simp)
    | vint n =>
      have h' : (!(pyTruthy (Value.vint n))) = true := h
      rw [ht] at h'
      exact absurd h' (by simp)
    | vother t c =>
      have h' : (!(pyTruthy (Value.vother t c))) = true := h
      rw [ht] at h'
      exact absurd h' (by simp)
  · rw [unwrapArgs_not_found m (by simpa using hc)]
    intro _
    exact ⟨m, rfl⟩

theorem tameOldStyle_vstr_elim (s : String)
    (h : tameOldStyleB (Value.vstr s) = true) :
    ∀ b, tameDictB (parse_kv s b) = true := by
  have h' : (tameDictB (parse_kv s true) &&
      tameDictB (parse_kv s false)) = true := h
  rw [Bool.and_eq_true] at h'
  intro b
  cases b
  · exact h'.2
  · exact h'.1

theorem tameNewStyle_vstr_elim (s : String)
    (h : tameNewStyleB (Value.vstr s) = true) :
    ∃ x restToks, pySplit s = x :: restToks ∧
      ∀ b, tameDictB (parse_kv (joinWith " " restToks) b) = true := by
  have h' : (match pySplit s with
       | [] => false
       | _ :: restToks =>
           tameDictB (parse_kv (joinWith " " restToks) true) &&
           tameDictB (parse_kv (joinWith " " restToks) false)) = true := h
  cases hsp : pySplit s with
  | nil =>
    rw [hsp] at h'
    exact absurd h' (by simp)
  | cons x rest =>
    rw [hsp] at h'
    rw [Bool.and_eq_true] at h'
    refine ⟨x, rest, rfl, ?_⟩
    intro b
    cases b
    · exact h'.2
    · exact h'.1

theorem tameDict_unwrap (m : Dict)
    (h : tameDictB m = true) :
    pyTruthy (unwrapArgs (Value.vdict m)) = true →
      ∃ mm, unwrapArgs (Value.vdict m) = Value.vdict mm :=
  unwrapArgs_tame m h

theorem tameDict_unwrap_delKey (m : Dict)
    (h : tameDictB m = true) :
    pyTruthy (unwrapArgs (Value.vdict (delKey m "module"))) = true →
      ∃ mm, unwrapArgs (Value.vdict (delKey m "module")) =
        Value.vdict mm := by
  refine unwrapArgs_tame _ ?_
  have hdel : lookupKey (delKey m "module") "args" = lookupKey m "args" :=
    lookupKey_delKey_ne m "module" "args" (by decide)
  rw [hdel]
  exact h

/-- With a new-style-tame value, `_normalize_parameters` on the
action/local_action path either succeeds or raises the library's own
`AnsibleParserError`. -/
theorem normalize_parameters_tame_new (ds : Dict) (thing : Value)
    (add : Value)
    (htame : tameNewStyleB thing = true)
    (hadd : pyTruthy add = true → ∃ dd, add = Value.vdict dd) :
    (∃ r, normalize_parameters ds thing Value.vnone add = .ok r) ∨
    (∃ msg, normalize_parameters ds thing Value.vnone add =
      .error (.ansibleParserError msg ds)) := by
  have hInit : ∃ f, initialFinalArgs add = .ok f := by
    by_cases ht : pyTruthy add = true
    · rcases hadd ht with ⟨dd, rfl⟩
      exact ⟨updateDict [] dd, initialFinalArgs_dict dd⟩
    · exact ⟨[], initialFinalArgs_falsy add (by simpa using ht)⟩
  rcases hInit with ⟨f, hf⟩
  rw [normalize_parameters_newstyle, hf, exceptBind_ok]
  cases thing with
  | vstr s =>
    obtain ⟨x, rest, hsp, h2⟩ := tameNewStyle_vstr_elim s htame
    have hN : normalize_new_style_args ds (Value.vstr s) =
        .ok (Value.vstr x,
          Value.vdict (parse_kv (joinWith " " rest) (checkRawFor x))) := by
      rw [normalize_new_style_args,
        split_module_string_of_pySplit s x rest hsp]
      rfl
    rw [hN, exceptBind_ok]
    rcases mergeFinalArgs_tame (Value.vstr x) f _
      (tameDict_unwrap _ (h2 _)) with ⟨r, hr⟩
    exact Or.inl ⟨r, hr⟩
  | vdict m =>
    by_cases hcm : containsKey m "module" = true
    · rw [normalize_new_style_args, if_pos hcm, exceptBind_ok]
      rcases mergeFinalArgs_tame (getKeyD m "module" Value.vnone) f _
        (tameDict_unwrap_delKey m htame) with ⟨r, hr⟩
      exact Or.inl ⟨r, hr⟩
    · rw [normalize_new_style_args, if_neg (by simp [hcm]), exceptBind_ok]
      exact Or.inl ⟨(Value.vnone, f), rfl⟩
  | vnone => exact Or.inr ⟨_, rfl⟩
  | vbool c => exact Or.inr ⟨_, rfl⟩
  | vint n => exact Or.inr ⟨_, rfl⟩
  | vother t c => exact Or.inr ⟨_, rfl⟩

/-- With an old-style-tame value, `_normalize_parameters` under a known
operation name either succeeds or raises the library's own
`AnsibleParserError`. -/
theorem normalize_parameters_tame_old (ds : Dict) (thing : Value)
    (k : String) (add : Value)
    (htame : tameOldStyleB thing = true)
    (hadd : pyTruthy add = true → ∃ dd, add = Value.vdict dd) :
    (∃ r, normalize_parameters ds thing (Value.vstr k) add = .ok r) ∨
    (∃ msg, normalize_parameters ds thing (Value.vstr k) add =
      .error (.ansibleParserError msg ds)) := by
  have hInit : ∃ f, initialFinalArgs add = .ok f := by
    by_cases ht : pyTruthy add = true
    · rcases hadd ht with ⟨dd, rfl⟩
      exact ⟨updateDict [] dd, initialFinalArgs_dict dd⟩
    · exact ⟨[], initialFinalArgs_falsy add (by simpa using ht)⟩
  rcases hInit with ⟨f, hf⟩
  rw [normalize_parameters_oldstyle, hf, exceptBind_ok]
  cases thing with
  | vdict m =>
    rw [show normalize_old_style_args ds (Value.vdict m)
        (Value.vstr k) = .ok (Value.vdict m) from rfl, exceptBind_ok]
    rcases mergeFinalArgs_tame (Value.vstr k) f _
      (tameDict_unwrap m htame) with ⟨r, hr⟩
    exact Or.inl ⟨r, hr⟩
  | vstr s =>
    have hall := tameOldStyle_vstr_elim s htame
    rw [show normalize_old_style_args ds (Value.vstr s)
        (Value.vstr k) =
        .ok (Value.vdict (parse_kv s (valueCheckRaw (Value.vstr k))))
      from rfl, exceptBind_ok]
    rcases mergeFinalArgs_tame (Value.vstr k) f _
      (tameDict_unwrap _ (hall _)) with ⟨r, hr⟩
    exact Or.inl ⟨r, hr⟩
  | vnone =>
    rw [show normalize_old_style_args ds Value.vnone (Value.vstr k) =
        .ok Value.vnone from rfl, exceptBind_ok]
    exact Or.inl ⟨(Value.vstr k, f), rfl⟩
  | vbool c => exact Or.inr ⟨_, rfl⟩
  | vint n => exact Or.inr ⟨_, rfl⟩
  | vother t c => exact Or.inr ⟨_, rfl⟩

/-- With old-style-tame values under every matched key, the registry scan
either succeeds or raises the library's own `AnsibleParserError`. -/
theorem scanModules_tame (isKnown : String → Bool) (task_ds : Dict)
    (add : Value)
    (hadd : pyTruthy add = true → ∃ dd, add = Value.vdict dd) :
    ∀ (l : List (String × Value)) (a : Value) (ar : Dict),
      (∀ p ∈ l, (isKnown p.1 || p.1 == "meta") = true →
        tameOldStyleB p.2 = true) →
      (∃ r, scanModules isKnown task_ds add l a ar = .ok r) ∨
      (∃ msg, scanModules isKnown task_ds add l a ar =
        .error (.ansibleParserError msg task_ds))
  | [], a, ar, _ => Or.inl ⟨(a, ar), rfl⟩
  | (k, v) :: rest, a, ar, htame => by
      by_cases hm : (isKnown k || k == "meta") = true
      · rw [scanModules, hm, if_pos rfl]
        by_cases hA : a ≠ Value.vnone
        · rw [if_pos hA]
          exact Or.inr ⟨_, rfl⟩
        · rw [if_neg hA]
          rcases normalize_parameters_tame_old task_ds v k add
            (htame (k, v) (List.mem_cons_self _ _) hm)
            hadd with ⟨⟨a2, ar2⟩, hr⟩ | ⟨msg, hr⟩
          · rw [hr, exceptBind_ok]
            exact scanModules_tame isKnown task_ds add hadd rest a2 ar2
              (fun p hp => htame p (List.mem_cons_of_mem _ hp))
          · rw [hr]
            exact Or.inr ⟨msg, rfl⟩
      · have hm' : (isKnown k || k == "meta") = false := by simpa using hm
        rw [scanModules, hm']
        simp only [Bool.false_eq_true, if_false]
        exact scanModules_tame isKnown task_ds add hadd rest a ar
          (fun p hp => htame p (List.mem_cons_of_mem _ hp))

/-- C8 counterexample: `{action: ""}` raises a Python IndexError
(`tokens[0]` of an empty token list), not the single MalformedTaskError
kind the claim promises for every record shape. -/
theorem C8_counterexample :
    parse (fun _ => false) [("action", Value.vstr "")] =
      .error PErr.indexError ∧
    isParserError PErr.indexError = false :=
  ⟨by decide, rfl⟩

/-- C8 (amended): `parse` either returns a triple or fails with the
library's own `AnsibleParserError` carrying the offending record, provided
the record is tame where — and only where — its values feed the parse:
`action`/`local_action` values tame for the new-style path (a string has a
first whitespace token, else IndexError at `tokens[0]`; a tokenized or
given mapping's truthy `args` entry is a mapping, else `dict.update`
raises), registry-matched values tame for the old-style path, and the
top-level `args` defaults a mapping or falsy. Values under untouched keys
are unconstrained. -/
theorem C8_single_error_kind (isKnown : String → Bool) (ds : Dict)
    (htame : tameRecordB isKnown ds = true) :
    (∃ r, parse isKnown ds = .ok r) ∨
    (∃ msg, parse isKnown ds = .error (.ansibleParserError msg ds)) := by
  have hrec : ((match lookupKey ds "action" with
       | some v => tameNewStyleB v
       | none => true) &&
      (match lookupKey ds "local_action" with
       | some v => tameNewStyleB v
       | none => true) &&
      tameDictB ds &&
      ds.all (fun p => !(isKnown p.1 || p.1 == "meta") ||
        tameOldStyleB p.2)) = true := htame
  rw [Bool.and_eq_true, Bool.and_eq_true, Bool.and_eq_true] at hrec
  obtain ⟨⟨⟨hAct, hLoc⟩, hargsD⟩, hAll⟩ := hrec
  have hargs : (match lookupKey ds "args" with
       | some (Value.vdict _) => true
       | some w => !(pyTruthy w)
       | none => true) = true := hargsD
  have hAllT : ∀ p ∈ ds, (isKnown p.1 || p.1 == "meta") = true →
      tameOldStyleB p.2 = true := by
    intro p hp hm
    have h1 := List.all_eq_true.mp hAll p hp
    rw [hm] at h1
    simpa using h1
  have hadd : pyTruthy (getKeyD ds "args" (Value.vdict [])) = true →
      ∃ dd, getKeyD ds "args" (Value.vdict []) = Value.vdict dd := by
    cases hl : lookupKey ds "args" with
    | none =>
      rw [getKeyD, hl]
      intro _
      exact ⟨[], rfl⟩
    | some w =>
      rw [getKeyD, hl]
      rw [hl] at hargs
      intro ht
      cases w with
      | vdict dd => exact ⟨dd, rfl⟩
      | vstr s =>
        have h' : (!(pyTruthy (Value.vstr s))) = true := hargs
        have ht' : pyTruthy (Value.vstr s) = true := ht
        rw [ht'] at h'
        exact absurd h' (by simp)
      | vnone => exact absurd ht (by simp [pyTruthy])
      | vbool c =>
        have h' : (!(pyTruthy (Value.vbool c))) = true := hargs
        have ht' : pyTruthy (Value.vbool c) = true := ht
        rw [ht'] at h'
        exact absurd h' (by simp)
      | vint n =>
        have h' : (!(pyTruthy (Value.vint n))) = true := hargs
        have ht' : pyTruthy (Value.vint n) = true := ht
        rw [ht'] at h'
        exact absurd h' (by simp)
      | vother t c =>
        have h' : (!(pyTruthy (Value.vother t c))) = true := hargs
        have ht' : pyTruthy (Value.vother t c) = true := ht
        rw [ht'] at h'
        exact absurd h' (by simp)
  have hscanAll : ∀ (a2 : Value) (ar2 : Dict),
      (∃ r, scanModules isKnown ds (getKeyD ds "args" (Value.vdict [])) ds
        a2 ar2 = .ok r) ∨
      (∃ msg, scanModules isKnown ds (getKeyD ds "args" (Value.vdict []))
        ds a2 ar2 = .error (.ansibleParserError msg ds)) :=
    fun a2 ar2 => scanModules_tame isKnown ds _ hadd ds a2 ar2 hAllT
  have hpre : (∃ r, parsePre isKnown ds = .ok r) ∨
      (∃ msg, parsePre isKnown ds = .error (.ansibleParserError msg ds)) := by
    by_cases hA : containsKey ds "action" = true
    · rcases lookup_of_contains ds "action" hA with ⟨v0, hv0⟩
      have hth : getKeyD ds "action" Value.vnone = v0 :=
        getKeyD_of_lookup _ _ _ _ hv0
      have htv : tameNewStyleB v0 = true := by
        rw [hv0] at hAct
        exact hAct
      rcases normalize_parameters_tame_new ds v0
        (getKeyD ds "args" (Value.vdict [])) htv hadd with
        ⟨⟨a1, ar1⟩, hn1⟩ | ⟨msg, hn1⟩
      · by_cases hL : containsKey ds "local_action" = true
        · by_cases ha1 : a1 = Value.vnone
          · subst ha1
            rcases lookup_of_contains ds "local_action" hL with ⟨w0, hw0⟩
            have hth2 : getKeyD ds "local_action" (Value.vstr "") = w0 :=
              getKeyD_of_lookup _ _ _ _ hw0
            have htw : tameNewStyleB w0 = true := by
              rw [hw0] at hLoc
              exact hLoc
            rcases normalize_parameters_tame_new ds w0
              (getKeyD ds "args" (Value.vdict [])) htw
              hadd with ⟨⟨a2, ar2⟩, hn2⟩ | ⟨msg, hn2⟩
            · rcases hscanAll a2 ar2 with ⟨⟨a3, ar3⟩, hs⟩ | ⟨msg, hs⟩
              · by_cases h3 : a3 = Value.vnone
                · refine Or.inr ⟨"no action detected in task", ?_⟩
                  simp [parsePre, parseActionStages, hA, hth, hn1, hL, hth2, hn2, hs, h3]
                · refine Or.inl ⟨(a3, ar3, some "localhost"), ?_⟩
                  simp [parsePre, parseActionStages, hA, hth, hn1, hL, hth2, hn2, hs, h3]
              · refine Or.inr ⟨msg, ?_⟩
                simp [parsePre, parseActionStages, hA, hth, hn1, hL, hth2, hn2, hs]
            · refine Or.inr ⟨msg, ?_⟩
              simp [parsePre, parseActionStages, hA, hth, hn1, hL, hth2, hn2]
          · refine Or.inr
              ⟨"action and local_action are mutually exclusive", ?_⟩
            simp [parsePre, parseActionStages, hA, hth, hn1, hL, ha1]
        · rcases hscanAll a1 ar1 with ⟨⟨a3, ar3⟩, hs⟩ | ⟨msg, hs⟩
          · by_cases h3 : a3 = Value.vnone
            · refine Or.inr ⟨"no action detected in task", ?_⟩
              simp [parsePre, parseActionStages, hA, hth, hn1, hL, hs, h3]
            · refine Or.inl ⟨(a3, ar3, none), ?_⟩
              simp [parsePre, parseActionStages, hA, hth, hn1, hL, hs, h3]
          · refine Or.inr ⟨msg, ?_⟩
            simp [parsePre, parseActionStages, hA, hth, hn1, hL, hs]
      · refine Or.inr ⟨msg, ?_⟩
        simp [parsePre, parseActionStages, hA, hth, hn1]
    · by_cases hL : containsKey ds "local_action" = true
      · rcases lookup_of_contains ds "local_action" hL with ⟨w0, hw0⟩
        have hth2 : getKeyD ds "local_action" (Value.vstr "") = w0 :=
          getKeyD_of_lookup _ _ _ _ hw0
        have htw : tameNewStyleB w0 = true := by
          rw [hw0] at hLoc
          exact hLoc
        rcases normalize_parameters_tame_new ds w0
          (getKeyD ds "args" (Value.vdict [])) htw hadd with
          ⟨⟨a2, ar2⟩, hn2⟩ | ⟨msg, hn2⟩
        · rcases hscanAll a2 ar2 with ⟨⟨a3, ar3⟩, hs⟩ | ⟨msg, hs⟩
          · by_cases h3 : a3 = Value.vnone
            · refine Or.inr ⟨"no action detected in task", ?_⟩
              simp [parsePre, parseActionStages, hA, hL, hth2, hn2, hs, h3]
            · refine Or.inl ⟨(a3, ar3, some "localhost"), ?_⟩
              simp [parsePre, parseActionStages, hA, hL, hth2, hn2, hs, h3]
          · refine Or.inr ⟨msg, ?_⟩
            simp [parsePre, parseActionStages, hA, hL, hth2, hn2, hs]
        · refine Or.inr ⟨msg, ?_⟩
          simp [parsePre, parseActionStages, hA, hL, hth2, hn2]
      · rcases hscanAll Value.vnone [] with ⟨⟨a3, ar3⟩, hs⟩ | ⟨msg, hs⟩
        · by_cases h3 : a3 = Value.vnone
          · refine Or.inr ⟨"no action detected in task", ?_⟩
            simp [parsePre, parseActionStages, hA, hL, hs, h3]
          · refine Or.inl ⟨(a3, ar3, none), ?_⟩
            simp [parsePre, parseActionStages, hA, hL, hs, h3]
        · refine Or.inr ⟨msg, ?_⟩
          simp [parsePre, parseActionStages, hA, hL, hs]
  rcases hpre with ⟨⟨a, ar, dl⟩, hp⟩ | ⟨msg, hp⟩
  · exact Or.inl ⟨((handle_shell_weirdness a ar).1,
      (handle_shell_weirdness a ar).2, dl), by simp [parse, hp]⟩
  · exact Or.inr ⟨msg, by simp [parse, hp]⟩

/-! ## Claim C9: frame lemmas for the heap model -/

theorem frm_pure {α : Type} (n : Nat) (x : α) (P : α → Prop) (h : P x) :
    FramesRet n (pure x : M α) P := by
  intro σ hσ
  refine ⟨hσ, fun a _ => rfl, fun y hy => ?_⟩
  injection hy with h1
  exact h1 ▸ h

theorem frm_throw {α : Type} (n : Nat) (e : HErr) (P : α → Prop) :
    FramesRet n (mThrow e : M α) P := by
  intro σ hσ
  refine ⟨hσ, fun a _ => rfl, fun y hy => ?_⟩
  exact absurd hy (by simp [mThrow])

theorem frm_alloc (n : Nat) (d : HDict) :
    FramesRet n (allocDict d) (fun r => n ≤ r) := by
  intro σ hσ
  refine ⟨?_, ?_, ?_⟩
  · show n ≤ (σ ++ [d]).length
    rw [List.length_append]
    omega
  · intro a ha
    show (σ ++ [d]).getD a [] = σ.getD a []
    rw [List.getD_append]
    omega
  · intro x hx
    injection hx with h1
    subst h1
    exact hσ

theorem frm_read (n : Nat) (a : Nat) :
    FramesRet n (readDict a) (fun _ => True) := by
  intro σ hσ
  exact ⟨hσ, fun _ _ => rfl, fun _ _ => trivial⟩

theorem frm_write (n a : Nat) (d : HDict) (h : n ≤ a) :
    FramesRet n (writeDict a d) (fun _ => True) := by
  intro σ hσ
  refine ⟨?_, ?_, fun _ _ => trivial⟩
  · show n ≤ (σ.set a d).length
    rw [List.length_set]
    exact hσ
  · intro i hi
    show (σ.set a d).getD i [] = σ.getD i []
    have hne : a ≠ i := by omega
    rw [List.getD_eq_getElem?_getD, List.getD_eq_getElem?_getD,
      List.getElem?_set_ne hne]

theorem frm_bind {α β : Type} (n : Nat) (m : M α) (f : α → M β)
    (P : α → Prop) (Q : β → Prop)
    (hm : FramesRet n m P)
    (hf : ∀ x, P x → FramesRet n (f x) Q) :
    FramesRet n (m >>= f) Q := by
  intro σ hσ
  obtain ⟨h1, h2, h3⟩ := hm σ hσ
  have heq : (m >>= f) σ =
      match m σ with
      | (.error e, σ2) => (.error e, σ2)
      | (.ok x, σ2) => f x σ2 := rfl
  rcases hms : m σ with ⟨r, σ2⟩
  rw [hms] at h1 h2 h3 heq
  cases r with
  | error e =>
    rw [heq]
    refine ⟨h1, h2, fun y hy => ?_⟩
    exact absurd hy (by simp)
  | ok x =>
    rw [heq]
    obtain ⟨g1, g2, g3⟩ := hf x (h3 x rfl) σ2 h1
    exact ⟨g1, fun a ha => (g2 a ha).trans (h2 a ha), g3⟩

theorem frm_weaken {α : Type} (n : Nat) (m : M α) (P Q : α → Prop)
    (hPQ : ∀ x, P x → Q x) (hm : FramesRet n m P) :
    FramesRet n m Q := by
  intro σ hσ
  obtain ⟨h1, h2, h3⟩ := hm σ hσ
  exact ⟨h1, h2, fun x hx => hPQ x (h3 x hx)⟩

theorem frames_dictSetItem (n a : Nat) (k : String) (v : HVal)
    (h : n ≤ a) : FramesRet n (dictSetItem a k v) (fun _ => True) :=
  frm_bind n _ _ _ _ (frm_read n a)
    (fun d _ => frm_write n a (hSetKey d k v) h)

theorem frames_dictDelItem (n a : Nat) (k : String) (h : n ≤ a) :
    FramesRet n (dictDelItem a k) (fun _ => True) :=
  frm_bind n _ _ _ _ (frm_read n a)
    (fun d _ => frm_write n a (hDelKey d k) h)

theorem frames_dictUpdateRef (n a : Nat) (src : HDict) (h : n ≤ a) :
    FramesRet n (dictUpdateRef a src) (fun _ => True) :=
  frm_bind n _ _ _ _ (frm_read n a)
    (fun d _ => frm_write n a (hUpdate d src) h)

theorem frames_dictCopy (n a : Nat) :
    FramesRet n (dictCopy a) (fun r => n ≤ r) :=
  frm_bind n _ _ _ _ (frm_read n a) (fun d _ => frm_alloc n d)

theorem frames_hTruthy (n : Nat) (v : HVal) :
    FramesRet n (hTruthy v) (fun _ => True) := by
  cases v with
  | href a =>
    exact frm_bind n _ _ _ _ (frm_read n a)
      (fun d _ => frm_pure n _ _ trivial)
  | hstr s => exact frm_pure n _ _ trivial
  | hnone => exact frm_pure n _ _ trivial
  | hbool b => exact frm_pure n _ _ trivial
  | hint m => exact frm_pure n _ _ trivial
  | hother t b => exact frm_pure n _ _ trivial

theorem frames_old_style (n : Nat) (task_ref : Nat) (thing action : HVal) :
    FramesRet n (normalize_old_style_argsH task_ref thing action)
      (fun _ => True) := by
  cases thing with
  | href a0 => exact frm_pure n _ _ trivial
  | hstr s =>
    exact frm_bind n _ _ _ _ (frm_alloc n _)
      (fun r _ => frm_pure n _ _ trivial)
  | hnone => exact frm_pure n _ _ trivial
  | hbool b => exact frm_throw n _ _
  | hint m => exact frm_throw n _ _
  | hother t b => exact frm_throw n _ _

theorem frames_new_style (n : Nat) (task_ref : Nat) (thing : HVal) :
    FramesRet n (normalize_new_style_argsH task_ref thing)
      (fun _ => True) := by
  cases thing with
  | href a0 =>
    refine frm_bind n _ _ _ _ (frames_dictCopy n a0) (fun c hc => ?_)
    refine frm_bind n _ _ _ _ (frm_read n c) (fun d _ => ?_)
    cases hb : hContains d "module" with
    | true =>
      simp only [normalize_new_style_argsH, hb, if_pos]
      refine frm_bind n _ _ _ _ (frames_dictCopy n c) (fun r hr => ?_)
      refine frm_bind n _ _ _ _ (frames_dictDelItem n r "module" hr)
        (fun _ _ => ?_)
      exact frm_pure n _ _ trivial
    | false =>
      simp only [hb, Bool.false_eq_true, if_false]
      exact frm_pure n _ _ trivial
  | hstr s =>
    show FramesRet n
      (match pySplit s with
       | [] => mThrow .indexError
       | [t] => do
           let r ← allocDict (hparse_kv "" (checkRawFor t))
           pure (HVal.hstr t, HVal.href r)
       | t :: rest => do
           let r ← allocDict
             (hparse_kv (joinWith " " rest) (checkRawFor t))
           pure (HVal.hstr t, HVal.href r)) _
    cases pySplit s with
    | nil => exact frm_throw n _ _
    | cons t rest =>
      cases rest with
      | nil =>
        exact frm_bind n _ _ _ _ (frm_alloc n _)
          (fun r _ => frm_pure n _ _ trivial)
      | cons t2 rest2 =>
        exact frm_bind n _ _ _ _ (frm_alloc n _)
          (fun r _ => frm_pure n _ _ trivial)
  | hnone => exact frm_throw n _ _
  | hbool b => exact frm_throw n _ _
  | hint m => exact frm_throw n _ _
  | hother t b => exact frm_throw n _ _

theorem frames_updateFromValue (n fa : Nat) (v : HVal) (hfa : n ≤ fa) :
    FramesRet n (updateFromValue fa v) (fun _ => True) := by
  refine frm_bind n _ _ (fun _ => True) _ (frames_hTruthy n v)
    (fun t _ => ?_)
  cases t with
  | true =>
    simp only [if_pos]
    cases v with
    | href a0 =>
      exact frm_bind n _ _ (fun _ => True) _ (frm_read n a0)
        (fun d _ => frames_dictUpdateRef n fa d hfa)
    | hstr s => exact frm_throw n _ _
    | hnone => exact frm_throw n _ _
    | hbool b => exact frm_throw n _ _
    | hint m => exact frm_throw n _ _
    | hother t b => exact frm_throw n _ _
  | false =>
    simp only [Bool.false_eq_true, if_false]
    exact frm_pure n _ _ trivial

theorem frames_unwrapArgsH (n : Nat) (args : HVal) :
    FramesRet n (unwrapArgsH args) (fun _ => True) := by
  cases args with
  | href a0 =>
    refine frm_bind n _ _ (fun _ => True) _ (frm_read n a0)
      (fun d _ => ?_)
    split
    · exact frm_pure n _ _ trivial
    · exact frm_pure n _ _ trivial
  | hstr s => exact frm_pure n _ _ trivial
  | hnone => exact frm_pure n _ _ trivial
  | hbool b => exact frm_pure n _ _ trivial
  | hint m => exact frm_pure n _ _ trivial
  | hother t b => exact frm_pure n _ _ trivial

theorem frames_normalize_parameters (n : Nat) (task_ref : Nat)
    (thing action additional : HVal) :
    FramesRet n (normalize_parametersH task_ref thing action additional)
      (fun r => n ≤ r.2) := by
  refine frm_bind n _ _ (fun fa => n ≤ fa) _ (frm_alloc n [])
    (fun fa hfa => ?_)
  refine frm_bind n _ _ (fun _ => True) _
    (frames_updateFromValue n fa additional hfa) (fun _ _ => ?_)
  refine frm_bind n _ _ (fun _ => True) _ ?_ (fun p _ => ?_)
  · by_cases hact : action ≠ HVal.hnone
    · rw [if_pos hact]
      exact frm_bind n _ _ (fun _ => True) _
        (frames_old_style n task_ref thing action)
        (fun ar _ => frm_pure n _ _ trivial)
    · rw [if_neg hact]
      exact frm_weaken n _ _ _ (fun _ _ => trivial)
        (frames_new_style n task_ref thing)
  · refine frm_bind n _ _ (fun _ => True) _ (frames_unwrapArgsH n p.2)
      (fun args2 _ => ?_)
    refine frm_bind n _ _ (fun _ => True) _
      (frames_updateFromValue n fa args2 hfa) (fun _ _ => ?_)
    exact frm_pure n _ _ hfa

theorem frames_scanModules (n : Nat) (isKnown : String → Bool)
    (task_ref : Nat) (additional : HVal) :
    ∀ (l : List (String × HVal)) (action : HVal) (args : Nat),
      n ≤ args →
      FramesRet n (scanModulesH isKnown task_ref additional l action args)
        (fun r => n ≤ r.2)
  | [], _, _, hargs => frm_pure n _ _ hargs
  | (item, value) :: rest, action, args, hargs => by
      by_cases hm : (isKnown item || item == "meta") = true
      · rw [scanModulesH, hm, if_pos rfl]
        by_cases hact : action ≠ HVal.hnone
        · rw [if_pos hact]
          exact frm_throw n _ _
        · rw [if_neg hact]
          refine frm_bind n _ _ (fun r => n ≤ r.2) _
            (frames_normalize_parameters n task_ref value (HVal.hstr item)
              additional) (fun p hp => ?_)
          obtain ⟨a, ar⟩ := p
          exact frames_scanModules n isKnown task_ref additional rest a ar hp
      · have hm' : (isKnown item || item == "meta") = false := by
          simpa using hm
        rw [scanModulesH, hm']
        simp only [Bool.false_eq_true, if_false]
        exact frames_scanModules n isKnown task_ref additional rest action
          args hargs

theorem frames_handle (n : Nat) (action : HVal) (argsRef : Nat)
    (h : n ≤ argsRef) :
    FramesRet n (handle_shell_weirdnessH action argsRef)
      (fun r => n ≤ r.2) := by
  rw [handle_shell_weirdnessH]
  split
  · exact frm_pure n _ _ h
  · split
    · exact frm_bind n _ _ (fun _ => True) _
        (frames_dictSetItem n argsRef "_uses_shell" (HVal.hbool true) h)
        (fun _ _ => frm_pure n _ _ h)
    · exact frm_pure n _ _ h

theorem frames_parseH (n : Nat) (isKnown : String → Bool)
    (task_ref : Nat) :
    FramesRet n (parseH isKnown task_ref) (fun _ => True) := by
  refine frm_bind n _ _ (fun _ => True) _ (frm_read n task_ref)
    (fun task _ => ?_)
  refine frm_bind n _ _ (fun r => n ≤ r) _ (frm_alloc n [])
    (fun args0 h0 => ?_)
  refine frm_bind n _ _ (fun _ => True) _
    (frm_weaken n _ _ _ (fun _ _ => trivial) (frm_alloc n []))
    (fun dflt _ => ?_)
  refine frm_bind n _ _ (fun t => n ≤ t.2.1) _ ?_ (fun trip1 h1 => ?_)
  · by_cases hA : hContains task "action" = true
    · rw [if_pos hA]
      refine frm_bind n _ _ (fun r => n ≤ r.2) _
        (frames_normalize_parameters n task_ref _ _ _) (fun p hp => ?_)
      exact frm_pure n _ _ hp
    · rw [if_neg hA]
      exact frm_pure n _ _ h0
  · refine frm_bind n _ _ (fun t => n ≤ t.2.1) _ ?_ (fun trip2 h2 => ?_)
    · by_cases hL : hContains task "local_action" = true
      · rw [if_pos hL]
        by_cases hact : trip1.1 ≠ HVal.hnone
        · rw [if_pos hact]
          exact frm_throw n _ _
        · rw [if_neg hact]
          refine frm_bind n _ _ (fun r => n ≤ r.2) _
            (frames_normalize_parameters n task_ref _ _ _)
            (fun p hp => ?_)
          exact frm_pure n _ _ hp
      · rw [if_neg hL]
        exact frm_pure n _ _ h1
    · refine frm_bind n _ _ (fun r => n ≤ r.2) _
        (frames_scanModules n isKnown task_ref _ task trip2.1 trip2.2.1 h2)
        (fun q hq => ?_)
      refine frm_bind n _ _ (fun r => n ≤ r.2) _ ?_
        (fun r _ => frm_pure n _ _ trivial)
      by_cases h3 : q.1 = HVal.hnone
      · rw [if_pos h3]
        exact frm_throw n _ _
      · rw [if_neg h3]
        exact frames_handle n q.1 q.2 hq

/-- C9: `parse` never mutates its input — in the heap model, running
`parseH` from any store only appends fresh objects: every pre-existing
address (the task record, its top-level `args` mapping, and every nested
mapping value) holds exactly the entries it held before the call, whether
the parse succeeds or raises. -/
theorem C9_parse_no_input_mutation (isKnown : String → Bool)
    (task_ref : Nat) (σ : Store) :
    σ.length ≤ ((parseH isKnown task_ref) σ).2.length ∧
    ∀ a, a < σ.length →
      ((parseH isKnown task_ref) σ).2.getD a [] = σ.getD a [] := by
  obtain ⟨h1, h2, _⟩ :=
    frames_parseH σ.length isKnown task_ref σ (Nat.le_refl _)
  exact ⟨h1, h2⟩

/-- C8 witness: the record
`{name: "", copy: "src=a", args: {chdir: "/tmp"}}` — tame even though the
unmatched `name` key carries an empty string, since untouched values are
unconstrained. -/
theorem C8_witness :
    tameRecordB (fun s => s == "copy")
      [("name", Value.vstr ""), ("copy", Value.vstr "src=a"),
       ("args", Value.vdict [("chdir", Value.vstr "/tmp")])] = true ∧
    ((∃ r, parse (fun s => s == "copy")
        [("name", Value.vstr ""), ("copy", Value.vstr "src=a"),
         ("args", Value.vdict [("chdir", Value.vstr "/tmp")])] = .ok r) ∨
     (∃ msg, parse (fun s => s == "copy")
        [("name", Value.vstr ""), ("copy", Value.vstr "src=a"),
         ("args", Value.vdict [("chdir", Value.vstr "/tmp")])] =
          .error (.ansibleParserError msg
            [("name", Value.vstr ""), ("copy", Value.vstr "src=a"),
             ("args", Value.vdict [("chdir", Value.vstr "/tmp")])]))) :=
  ⟨by decide,
    C8_single_error_kind (fun s => s == "copy")
      [("name", Value.vstr ""), ("copy", Value.vstr "src=a"),
       ("args", Value.vdict [("chdir", Value.vstr "/tmp")])]
      (by decide)⟩

end ModArgs
